import Mathlib

/-!
Shallow embedding of the resource-aware input component
(`src/components/business/ResourceInput.vue`, second script block — the
variant all claims cite) of the hicode-vue repository.

The editable surface is modelled as a list of content nodes: the direct
children of the contenteditable `div` are text nodes, resource-tag `span`
elements (carrying a `data-resource-id` attribute) and `br` elements.  The
inner markup of a resource tag (icon container, close button, label) is
presentation only: no claim observes it, and the source functions under
study read only the `data-resource-id` attribute of a tag, so a tag is
modelled by its resource id.  Strings are modelled as `List Char` so that
the delimiter scanning of `parseContentWithResources` can be reasoned about
by structural induction.
-/

namespace ResourceInput

/-- Characters of a JavaScript string. -/
abbrev Str := List Char

/-- The storage-format delimiter `【$RES$】` wrapping a resource id
(`ResourceInput.vue`, `extractTextFromNode` / `parseContentWithResources`). -/
def DELIM : Str := ['【', '$', 'R', 'E', 'S', '$', '】']

/-- A direct child of the contenteditable `div`: a text node, a
resource-tag element (identified by its `data-resource-id` attribute;
the inner presentation markup is abstracted away), or a `br` element. -/
inductive Node : Type
| text (s : Str)
| tok (id : Str)
| br
deriving DecidableEq, Repr

/-- Resource type union of the component's `Resource` interface. -/
inductive RType : Type
| code
| file
| image
| folder
deriving DecidableEq, Repr

/-- The fields of the `Resource` interface that the functions under study
read (`id`, `type`, `filePath`).  The presentation-only fields
(`language`, `languageId`, `code`, `startLine`, `endLine`, `name`) feed the
rendered label and icon, which the model abstracts away. -/
structure Resource : Type where
  id : Str
  rtype : RType
  filePath : Option Str
deriving DecidableEq, Repr

/-- Component state: the children of the editable `div` plus the key set of
`resourcesMap` (the map from resource id to the tag element; the stored
element of a key `k` is, in every state the component constructs, the
unique tag element that carries attribute `k`, so the key list determines
the map). -/
structure St : Type where
  doc : List Node
  rmap : List Str
deriving DecidableEq, Repr

/-- Events emitted to the host, in emission order. -/
inductive Ev : Type
| updateModelValue (s : Str)
| resourceRemoved (id : Str)
| enter
| ctrlEnter
| arrowUp
deriving DecidableEq, Repr

/-- A collapsed caret: either inside the text node at index `i` at char
offset `off`, or directly in the `div` before child index `g`. -/
inductive Sel : Type
| inText (i off : Nat)
| inDiv (g : Nat)
deriving DecidableEq, Repr

/-- Token ids of the document, in document order (the ids returned by
`div.querySelectorAll('.resource-tag')`). -/
def tokIds : List Node → List Str
| [] => []
| Node.tok id :: rest => id :: tokIds rest
| _ :: rest => tokIds rest

/-- Whether the document holds at least one resource tag. -/
def hasTags (d : List Node) : Prop := tokIds d ≠ []

instance (d : List Node) : Decidable (hasTags d) := by
  unfold hasTags; infer_instance

/-- `Map.set` on the key list: a key is added once. -/
def addKey (m : List Str) (id : Str) : List Str :=
  if id ∈ m then m else m ++ [id]

/-- Storage form of one child node, as produced by
`extractTextFromNode(node, false)`: text verbatim, a tag as the
delimiter-wrapped id — but only under the source's `if (resourceId)`
truthiness guard, so a tag with an empty id contributes nothing — and a
`br` as the empty string (it has no text content and is not a resource
tag). -/
def nodeStorage : Node → Str
| Node.text s => s
| Node.tok id => if id = [] then [] else DELIM ++ id ++ DELIM
| Node.br => []

/-- `getContent`: the storage string of the document
(`extractTextFromNode(div, false)`). -/
def getContent (d : List Node) : Str :=
  (d.map nodeStorage).flatten

/-- Concatenated text-node content of the document (its `textContent`,
restricted to the direct text children; the only place the source reads
`textContent` for a decision is guarded by `hasTags` being false, where
the two coincide). -/
def flatText (d : List Node) : Str :=
  (d.map fun n => match n with | Node.text s => s | _ => []).flatten

/-- JavaScript `trim()` removes these characters; a string is
whitespace-only exactly when `trim()` yields the empty string. -/
def jsWhite (c : Char) : Prop :=
  c = ' ' ∨ c = '\t' ∨ c = '\n' ∨ c = '\r' ∨ c = '\x0b' ∨ c = '\x0c'

instance (c : Char) : Decidable (jsWhite c) := by
  unfold jsWhite; infer_instance

/-- The string's `trim()` is empty (true for the empty string). -/
def whiteOnly (s : Str) : Prop := ∀ c ∈ s, jsWhite c

instance (s : Str) : Decidable (whiteOnly s) := by
  unfold whiteOnly; infer_instance

/-- `cleanupEmptyNodes`: drops every text node whose `trim()` is empty and
every childless non-tag element (in this model, `br`); resource tags are
explicitly kept.  (The source walks the whole subtree, so it also prunes
presentation elements inside tags, which the component re-creates on the
next tick; the model keeps tags atomic.) -/
def cleanupEmptyNodes (d : List Node) : List Node :=
  d.filter fun n =>
    match n with
    | Node.text s => ¬ whiteOnly s
    | Node.tok _ => True
    | Node.br => False

/-- One step of the trailing-node stripping loop of `ensureInputArea`,
working on the reversed child list: a whitespace-only trailing text node is
removed, a trailing `br` directly preceded by another `br` is removed,
anything else stops the loop. -/
def stripEndRev : List Node → List Node
| Node.text s :: rest =>
    if whiteOnly s then stripEndRev rest else Node.text s :: rest
| Node.br :: Node.br :: rest => stripEndRev (Node.br :: rest)
| l => l

/-- `ensureInputArea`: when the document holds tags, strip the trailing
whitespace text nodes and duplicated trailing `br`s, then pad with one
`br` if the last child is a resource tag (so the tag keeps a clickable
area after it).  Without tags the function does nothing. -/
def ensureInputArea (d : List Node) : List Node :=
  if hasTags d then
    match (stripEndRev d.reverse).reverse.getLast? with
    | some (Node.tok _) => (stripEndRev d.reverse).reverse ++ [Node.br]
    | none => (stripEndRev d.reverse).reverse ++ [Node.br]
    | _ => (stripEndRev d.reverse).reverse
  else d

/-- The emptiness test `!div.textContent?.trim() && !hasTags` used by
`updateResources` and `removeResource` to decide to clear the `div`
entirely. -/
def clearCond (d : List Node) : Prop :=
  ¬ hasTags d ∧ whiteOnly (flatText d)

instance (d : List Node) : Decidable (clearCond d) := by
  unfold clearCond; infer_instance

/-- Splits a string at every (leftmost, non-overlapping) occurrence of the
delimiter; the segments between delimiters, in order.  This is the
occurrence structure that the global regex
`/【\$RES\$】(.*?)【\$RES\$】/g` of `parseContentWithResources` pairs up. -/
def splitOnD : List Char → List (List Char)
| [] => [[]]
| '【' :: '$' :: 'R' :: 'E' :: 'S' :: '$' :: '】' :: rest => [] :: splitOnD rest
| c :: rest =>
    match splitOnD rest with
    | [] => [[c]]
    | s :: ss => (c :: s) :: ss

/-- In the regex `【\$RES\$】(.*?)【\$RES\$】`, the dot does not match a line
terminator, so a candidate id span containing one of these characters
cannot be captured and its opening delimiter is treated as plain text. -/
def lineTerm (c : Char) : Prop :=
  c = '\n' ∨ c = '\r' ∨ c = ' ' ∨ c = ' '

instance (c : Char) : Decidable (lineTerm c) := by
  unfold lineTerm; infer_instance

/-- A span the regex dot can capture: free of line terminators. -/
def dotSpan (s : Str) : Prop := ∀ c ∈ s, ¬ lineTerm c

instance (s : Str) : Decidable (dotSpan s) := by
  unfold dotSpan; infer_instance

/-- Appends a text node for `t` unless `t` is empty (the source guards
each `appendChild(document.createTextNode(...))` with a truthiness test). -/
def textNode? (t : Str) : List Node :=
  if t = [] then [] else [Node.text t]

/-- One step of the regex loop of `parseContentWithResources` over the
delimiter segments: `pending` is the text accumulated before the next
delimiter; the head of the segment list is the candidate id following that
delimiter.  With no further segment the unpaired trailing delimiter is
restored into the literal remaining text; with a further segment the
candidate is paired with the next delimiter when the regex dot can capture
it — a resolvable id becomes a tag, an unknown id keeps its literal
delimited text — and otherwise the opening delimiter and candidate are
folded into the pending text and the scan restarts at the next
delimiter. -/
def parseSegsGo (R : List Resource) (pending : Str) : List (List Char) → List Node
| [] => textNode? pending
| [c] => textNode? (pending ++ DELIM ++ c)
| c :: u :: rest =>
    if dotSpan c then
      match R.find? fun r => r.id = c with
      | some r => textNode? pending ++ [Node.tok r.id] ++ parseSegsGo R u rest
      | none =>
          textNode? pending ++ [Node.text (DELIM ++ c ++ DELIM)] ++ parseSegsGo R u rest
    else parseSegsGo R (pending ++ DELIM ++ c) (u :: rest)

/-- Rebuilds the children from the delimiter segments of the storage
string, mirroring the regex loop of `parseContentWithResources`. -/
def parseSegs (R : List Resource) : List (List Char) → List Node
| [] => []
| t :: rest => parseSegsGo R t rest

/-- `parseContentWithResources(content)`: the regex loop rebuilds the
children from scratch (`div.textContent = ''` first), each resolved marker
also storing its id into `resourcesMap` — the map is not cleared, so keys
of tags that the rebuild drops survive as stale entries.  The registered
`nextTick` then runs `ensureInputArea` (`ensureMinHeight` is styling
only). -/
def parseContentWithResources (R : List Resource) (content : Str) (st : St) : St :=
  ⟨ensureInputArea (parseSegs R (splitOnD content)),
   (tokIds (parseSegs R (splitOnD content))).foldl addKey st.rmap⟩

/-- `setContent(content)`: parse when the content carries the marker,
otherwise assign `textContent` directly (one text node, or no child for
the empty string); `resourcesMap` is untouched in both branches. -/
def setContent (R : List Resource) (content : Str) (st : St) : St :=
  if DELIM <:+: content then parseContentWithResources R content st
  else ⟨textNode? content, st.rmap⟩

/-- `normalizePath`: unify separators to `/` and lower-case. -/
def normalizePath (path : Str) : Str :=
  if path = [] then []
  else (path.map fun c => if c = '\\' then '/' else c).map Char.toLower

/-- The per-tag test of `findTagByFilePath`: the tag's id resolves in the
current resource list to a code resource whose normalized path equals the
normalized path of the searched resource. -/
def tagMatches (R : List Resource) (r : Resource) (y : Str) : Bool :=
  match R.find? fun er => er.id = y with
  | some er =>
      decide (er.rtype = RType.code) &&
        decide (normalizePath (er.filePath.getD []) = normalizePath (r.filePath.getD []))
  | none => false

/-- Scan of `querySelectorAll('.resource-tag')` in document order: the
index and current id of the first matching tag. -/
def findTagAux (R : List Resource) (r : Resource) : List Node → Nat → Option (Nat × Str)
| [], _ => none
| Node.tok y :: rest, i =>
    if tagMatches R r y then some (i, y) else findTagAux R r rest (i + 1)
| _ :: rest, i => findTagAux R r rest (i + 1)

/-- `findTagByFilePath`: `null` unless the searched resource is of type
code with a non-empty `filePath`; otherwise the first tag in document
order whose resolved resource is code with a path-normalized-equal
`filePath`. -/
def findTagByFilePath (R : List Resource) (r : Resource) (d : List Node) : Option (Nat × Str) :=
  if r.rtype = RType.code ∧ r.filePath.getD [] ≠ [] then findTagAux R r d 0
  else none

/-- Where `insertResourceTag` places the new tag element and the following
`' '` text node: at a caret inside a text node, `Range.insertNode` splits
the node around the tag; at a caret in the `div`, between children; with
no usable caret (none, or outside the editable), appended at the end.  The
returned caret is the one the source re-installs after the space (none in
the append branch, which leaves the selection alone). -/
def insTagAt (d : List Node) (sel : Option Sel) (id : Str) : List Node × Option Sel :=
  match sel with
  | none => (d ++ [Node.tok id, Node.text [' ']], none)
  | some (Sel.inDiv g) =>
      (d.take g ++ [Node.tok id, Node.text [' ']] ++ d.drop g, some (Sel.inDiv (g + 2)))
  | some (Sel.inText i off) =>
      match d.get? i with
      | some (Node.text s) =>
          (d.take i ++ [Node.text (s.take off), Node.tok id, Node.text [' '], Node.text (s.drop off)]
             ++ d.drop (i + 1),
           some (Sel.inDiv (i + 3)))
      | _ => (d.take i ++ [Node.tok id, Node.text [' ']] ++ d.drop i, some (Sel.inDiv (i + 2)))

/-- `insertResourceTag(resource)` as a single settled operation: a no-op
(up to the label refresh, which the model does not represent) when the id
is already a key of `resourcesMap`; otherwise the tag and its trailing
space are inserted, the id keyed, `syncValue` emitted with the new
content, and the deferred `ensureInputArea` applied. -/
def insertResourceTag (sel : Option Sel) (r : Resource) (st : St) : St × List Ev :=
  if r.id ∈ st.rmap then (st, [])
  else
    (⟨ensureInputArea (insTagAt st.doc sel r.id).1, addKey st.rmap r.id⟩,
     [Ev.updateModelValue (getContent (insTagAt st.doc sel r.id).1)])

/-- Accumulator of the `updateResources` merge loop. -/
structure MSt : Type where
  doc : List Node
  rmap : List Str
  sel : Option Sel
  evs : List Ev
deriving DecidableEq, Repr

/-- The insert arm of the merge loop: the synchronous part of
`insertResourceTag` (its `nextTick` is deferred past the loop and is
discharged by the final settling of `updateResources`). -/
def mergeIns (a : MSt) (r : Resource) : MSt :=
  { doc := (insTagAt a.doc a.sel r.id).1,
    rmap := addKey a.rmap r.id,
    sel := (insTagAt a.doc a.sel r.id).2,
    evs := a.evs ++ [Ev.updateModelValue (getContent (insTagAt a.doc a.sel r.id).1)] }

/-- One iteration of the `resources.forEach` body of `updateResources`:
keep an already-keyed id (label refresh only); else, for a code resource
with a path, re-key the first path-matching tag in place (moving the map
key only when the ids differ); else insert a fresh tag. -/
def mergeStep (R : List Resource) (a : MSt) (r : Resource) : MSt :=
  if r.id ∈ a.rmap then a
  else if r.rtype = RType.code ∧ r.filePath.getD [] ≠ [] then
    match findTagByFilePath R r a.doc with
    | some p =>
        if p.2 ≠ r.id then
          { a with doc := a.doc.set p.1 (Node.tok r.id),
                   rmap := addKey (a.rmap.filter fun k => k ≠ p.2) r.id }
        else a
    | none => mergeIns a r
  else mergeIns a r

/-- The prune pass of `updateResources`: every tag whose id the new list
does not contain is removed from the `div`. -/
def pruneDoc (R : List Resource) (d : List Node) : List Node :=
  d.filter fun n =>
    match n with
    | Node.tok id => (R.find? fun r => r.id = id).isSome
    | _ => true

/-- The map deletions of the prune pass: exactly the keys of the removed
tags (`resourcesMap.value.delete` per removed element) disappear. -/
def pruneMap (R : List Resource) (st : St) : List Str :=
  st.rmap.filter fun k =>
    ¬ ((R.find? fun r => r.id = k) = none ∧ Node.tok k ∈ st.doc)

/-- The deferred tail of `updateResources`: clear the `div` when it has
neither non-whitespace text nor tags, else `cleanupEmptyNodes` then
`ensureInputArea` (the `ensureInputArea` calls queued by inner inserts only
remove whitespace/`br` padding that `cleanupEmptyNodes` removes anyway, so
the composed deferred work settles to this). -/
def updSettle (d : List Node) : List Node :=
  if clearCond d then [] else ensureInputArea (cleanupEmptyNodes d)

/-- `updateResources(resources)` as a single settled operation: prune,
merge loop over the new list in order, deferred settling, final deferred
`syncValue`. -/
def updateResources (R : List Resource) (sel : Option Sel) (st : St) : St × List Ev :=
  (⟨updSettle (R.foldl (mergeStep R) ⟨pruneDoc R st.doc, pruneMap R st, sel, []⟩).doc,
    (R.foldl (mergeStep R) ⟨pruneDoc R st.doc, pruneMap R st, sel, []⟩).rmap⟩,
   (R.foldl (mergeStep R) ⟨pruneDoc R st.doc, pruneMap R st, sel, []⟩).evs
     ++ [Ev.updateModelValue (getContent
          (updSettle (R.foldl (mergeStep R) ⟨pruneDoc R st.doc, pruneMap R st, sel, []⟩).doc))])

/-- Removes the first tag element carrying the id (in every state the
component reaches, ids of attached tags are unique, so first = the one the
map stores). -/
def eraseFirstTok : List Node → Str → List Node
| [], _ => []
| n :: rest, id => if n = Node.tok id then rest else n :: eraseFirstTok rest id

/-- `removeResource(resourceId)` as a single settled operation.  The
source acts only when `resourcesMap` holds the id and the stored element
has a parent (is attached); in every state the component constructs, the
stored element of a key is the unique attached tag carrying that id, so
attachment is modelled as membership of the tag in the document.  On
success: element removed, key deleted, `syncValue` with the pre-cleanup
content, `resource-removed` emitted, then the deferred clear-or-cleanup. -/
def removeResource (id : Str) (st : St) : St × List Ev :=
  if id ∈ st.rmap ∧ Node.tok id ∈ st.doc then
    (⟨if clearCond (eraseFirstTok st.doc id) then []
      else cleanupEmptyNodes (eraseFirstTok st.doc id),
      st.rmap.filter fun k => k ≠ id⟩,
     [Ev.updateModelValue (getContent (eraseFirstTok st.doc id)), Ev.resourceRemoved id])
  else (st, [])

/-- `insertNewLine`: a `br` inserted at the caret (splitting a text node
when the caret is inside one), caret moved after it, `syncValue` emitted;
a missing selection returns without doing anything. -/
def insertNewLine (sel : Option Sel) (st : St) : St × List Ev × Option Sel :=
  match sel with
  | none => (st, [], none)
  | some (Sel.inDiv g) =>
      (⟨st.doc.take g ++ [Node.br] ++ st.doc.drop g, st.rmap⟩,
       [Ev.updateModelValue (getContent (st.doc.take g ++ [Node.br] ++ st.doc.drop g))],
       some (Sel.inDiv (g + 1)))
  | some (Sel.inText i off) =>
      match st.doc.get? i with
      | some (Node.text s) =>
          (⟨st.doc.take i ++ [Node.text (s.take off), Node.br, Node.text (s.drop off)]
              ++ st.doc.drop (i + 1), st.rmap⟩,
           [Ev.updateModelValue (getContent (st.doc.take i
              ++ [Node.text (s.take off), Node.br, Node.text (s.drop off)] ++ st.doc.drop (i + 1)))],
           some (Sel.inDiv (i + 2)))
      | _ =>
          (⟨st.doc.take i ++ [Node.br] ++ st.doc.drop i, st.rmap⟩,
           [Ev.updateModelValue (getContent (st.doc.take i ++ [Node.br] ++ st.doc.drop i))],
           some (Sel.inDiv (i + 1)))

/-- `handleBackspace`: with the caret collapsed at offset 0 of a child
whose previous sibling is a resource tag, default handling is suppressed
and the tag removed through `removeResource` (skipped for a falsy, i.e.
empty, id).  A caret whose container is the `div` itself has no
resource-tag previous sibling.  The third component is whether
`preventDefault` was called; otherwise the browser's default editing
applies (outside this model). -/
def handleBackspace (sel : Option Sel) (st : St) : St × List Ev × Bool :=
  match sel with
  | some (Sel.inText (i + 1) 0) =>
      match st.doc.get? i with
      | some (Node.tok id) =>
          if id = [] then (st, [], true)
          else ((removeResource id st).1, (removeResource id st).2, true)
      | _ => (st, [], false)
  | _ => (st, [], false)

/-- The destructured fields of the keyboard event that `handleKeydown`
reads. -/
structure KeyEvt : Type where
  code : Str
  ctrlKey : Bool
  metaKey : Bool
  isComposing : Bool
  keyCode : Nat
deriving DecidableEq, Repr

/-- `handleKeydown`: Enter (not composing) either inserts a newline and
emits `ctrl-enter` (with Ctrl/Cmd) or emits `enter`, both preventing
default; keyCode 38 emits `arrow-up` unconditionally; Backspace delegates
to `handleBackspace`; anything else falls through to the browser. -/
def handleKeydown (e : KeyEvt) (sel : Option Sel) (st : St) : St × List Ev × Bool :=
  if e.code = "Enter".toList ∧ e.isComposing = false then
    if e.ctrlKey = true ∨ e.metaKey = true then
      ((insertNewLine sel st).1, (insertNewLine sel st).2.1 ++ [Ev.ctrlEnter], true)
    else (st, [Ev.enter], true)
  else if e.keyCode = 38 then (st, [Ev.arrowUp], false)
  else if e.code = "Backspace".toList then handleBackspace sel st
  else (st, [], false)

/-- The map keys cover the attached tag ids (every tag element attached to
the editable surface has its id as a key of `resourcesMap`). -/
def mapCovers (st : St) : Prop := ∀ id, Node.tok id ∈ st.doc → id ∈ st.rmap

/-- The state the component reaches through its own operations: the key
set of `resourcesMap` is exactly the set of attached tag ids, and no id is
attached twice. -/
def consistentSt (st : St) : Prop :=
  (∀ id, id ∈ st.rmap ↔ id ∈ tokIds st.doc) ∧ (tokIds st.doc).Nodup

/-- The ids of a resource list, in order. -/
def rids (R : List Resource) : List Str := R.map Resource.id

/-- No two entries of the list are code resources with (non-empty)
path-normalized-equal file paths — the situation §9 of the specification
flags, in which the path-based re-keying heuristic can reassign a token. -/
def distinctCodePaths (R : List Resource) : Prop :=
  R.Pairwise fun r1 r2 =>
    ¬ (r1.rtype = RType.code ∧ r1.filePath.getD [] ≠ [] ∧
       r2.rtype = RType.code ∧ r2.filePath.getD [] ≠ [] ∧
       normalizePath (r1.filePath.getD []) = normalizePath (r2.filePath.getD []))

instance (R : List Resource) : Decidable (distinctCodePaths R) :=
  inferInstanceAs (Decidable (R.Pairwise _))

/-- The string contains no occurrence of the delimiter (stated through the
splitting function: splitting it is trivial). -/
def dFree (s : Str) : Prop := splitOnD s = [s]

instance (s : Str) : Decidable (dFree s) := by
  unfold dFree; infer_instance

/-- The head of the list is not a text node. -/
def headNotText : List Node → Prop
| Node.text _ :: _ => False
| _ => True

/-- A document the storage format can represent faithfully: only text runs
and tokens (no `br`, which serializes to nothing); text runs are
delimiter-free and never adjacent (adjacent runs would concatenate in the
storage string and could forge a delimiter); token ids are non-empty (an
empty id fails the `if (resourceId)` guard of `extractTextFromNode` and
serializes to nothing), delimiter-free, capturable by the regex dot, and
resolvable in `R`. -/
inductive SerialWF (R : List Resource) : List Node → Prop
| nil : SerialWF R []
| text (s : Str) (rest : List Node) :
    dFree s → headNotText rest → SerialWF R rest → SerialWF R (Node.text s :: rest)
| tok (id : Str) (rest : List Node) :
    id ≠ [] → dFree id → dotSpan id → (R.find? fun r => r.id = id).isSome →
    SerialWF R rest → SerialWF R (Node.tok id :: rest)

/-- The document with its empty text runs removed: parsing the storage
string of a well-formed document reproduces exactly this (the parse loop
only ever appends non-empty text nodes). -/
def dropEmptyTexts (d : List Node) : List Node :=
  d.filter fun n =>
    match n with
    | Node.text s => s ≠ []
    | _ => true

/-- The document does not end in a whitespace-only text run (such a run
is stripped by the `ensureInputArea` pass that follows a parse when tags
are present). -/
def noTrailWhite (d : List Node) : Prop :=
  match d.getLast? with
  | some (Node.text s) => ¬ whiteOnly s
  | _ => True

instance (d : List Node) : Decidable (noTrailWhite d) := by
  unfold noTrailWhite
  cases d.getLast? with
  | none => exact inferInstanceAs (Decidable True)
  | some n => cases n <;> infer_instance

/-- The normalized `filePath` of a resource (empty when the field is
absent). -/
def pathOf (r : Resource) : Str := normalizePath (r.filePath.getD [])

/-- The branch condition of the `updateResources` merge loop for path
re-keying: a code resource carrying a non-empty `filePath`. -/
def isCP (r : Resource) : Prop :=
  r.rtype = RType.code ∧ r.filePath.getD [] ≠ []

instance (r : Resource) : Decidable (isCP r) := by
  unfold isCP
  infer_instance

/-- The path class a tag id resolves to through the current list: the
normalized path of the first list entry carrying the id, when that entry
is of type code; `none` otherwise.  `tagMatches R r y` holds exactly when
this equals `some (pathOf r)`. -/
def classOf (R : List Resource) (y : Str) : Option Str :=
  match R.find? fun er => er.id = y with
  | some er => if er.rtype = RType.code then some (pathOf er) else none
  | none => none

/-- Two child lists of equal shape: elementwise equal, except that a
resource tag may hold a different id (the in-place re-keying only ever
rewrites a tag element to another tag element). -/
def shapePair (n m : Node) : Prop :=
  n = m ∨ ∃ x y, n = Node.tok x ∧ m = Node.tok y

/-- `x` is the first id of its path class in the token sequence `T` — at
the position `findTagByFilePath` targets for that class. -/
def firstOfClass (R : List Resource) (T : List Str) (x : Str) : Prop :=
  ∃ u v, T = u ++ x :: v ∧ ∀ z ∈ u, classOf R z ≠ classOf R x

/-- Invariant of one token position during the second reconcile run,
relating the start-of-run id `x` to the current id `y`: either untouched,
or churned — `x`, first of its class and temporarily unkeyed, was
overwritten in place by the same-class id `y`, `x`'s own entry `f` is
still pending in `L` (and will restore it), and no pending entry carries
the id `y` (so `y`'s key, removed when `x` returns, belongs to no pending
entry). -/
def pairOK (R L : List Resource) (K : List Str) (T0 : List Str) (x y : Str) : Prop :=
  classOf R x = classOf R y ∧
    (x = y ∨ (x ∉ K ∧ firstOfClass R T0 x ∧ (∃ f ∈ L, f.id = x ∧ isCP f)
      ∧ ∀ g ∈ L, g.id ≠ y))

/-- The second run's promise for a pending entry `e` whose id is not
keyed: the start-of-run token sequence `T0` holds a first token `x` of
`e`'s path class, `x`'s own entry `f` is pending no earlier than `e`, and
every same-class entry pending after `f` is keyed — so the run re-keys
that one position and ends with `x` back in place. -/
def anchorProm (R L : List Resource) (K : List Str) (T0 : List Str) (e : Resource) : Prop :=
  ∃ u x v, T0 = u ++ x :: v ∧ (∀ z ∈ u, classOf R z ≠ some (pathOf e))
    ∧ classOf R x = some (pathOf e)
    ∧ ∃ l1 f l2, L = l1 ++ f :: l2 ∧ f.id = x ∧ (e = f ∨ e ∈ l1)
      ∧ ∀ g ∈ l2, isCP g → pathOf g = pathOf e → g.id ∈ K

/-- The first run's record for a processed entry `e` whose id has been
re-keyed away: the current token sequence holds a first token `x` of
`e`'s class whose own entry `f` sits after `e` in the full list, and
every same-class entry after `f` is keyed already or still pending. -/
def stageProm (R M : List Resource) (K : List Str) (T : List Str) (e : Resource) : Prop :=
  ∃ u x v, T = u ++ x :: v ∧ (∀ z ∈ u, classOf R z ≠ some (pathOf e))
    ∧ classOf R x = some (pathOf e)
    ∧ ∃ l1 f l2, R = l1 ++ f :: l2 ∧ f.id = x ∧ e ∈ l1
      ∧ ∀ g ∈ l2, isCP g → pathOf g = pathOf e → (g.id ∈ K ∨ g ∈ M)

/-! ## Basic structural lemmas -/

theorem tokIds_append (a b : List Node) : tokIds (a ++ b) = tokIds a ++ tokIds b := by
  induction a with
  | nil => rfl
  | cons n rest ih => cases n <;> simp [tokIds, ih]

theorem mem_tokIds (d : List Node) (id : Str) : id ∈ tokIds d ↔ Node.tok id ∈ d := by
  induction d with
  | nil => simp [tokIds]
  | cons n rest ih => cases n <;> simp [tokIds, ih]

theorem tokIds_reverse (d : List Node) : tokIds d.reverse = (tokIds d).reverse := by
  induction d with
  | nil => rfl
  | cons n rest ih =>
      cases n <;> simp [tokIds, List.reverse_cons, tokIds_append, ih]

theorem tokIds_cleanup (d : List Node) : tokIds (cleanupEmptyNodes d) = tokIds d := by
  induction d with
  | nil => rfl
  | cons n rest ih =>
      cases n with
      | text s =>
          by_cases hw : whiteOnly s <;>
            simp [cleanupEmptyNodes, List.filter_cons, hw, tokIds] at ih ⊢ <;> exact ih
      | tok id => simp [cleanupEmptyNodes, List.filter_cons, tokIds] at ih ⊢; exact ih
      | br => simp [cleanupEmptyNodes, List.filter_cons, tokIds] at ih ⊢; exact ih

theorem tokIds_stripEndRev (l : List Node) : tokIds (stripEndRev l) = tokIds l := by
  induction l using stripEndRev.induct
  all_goals simp_all [stripEndRev, tokIds]

theorem tokIds_ensure (d : List Node) : tokIds (ensureInputArea d) = tokIds d := by
  have key : tokIds (stripEndRev d.reverse).reverse = tokIds d := by
    rw [tokIds_reverse, tokIds_stripEndRev, tokIds_reverse, List.reverse_reverse]
  unfold ensureInputArea
  split
  · split <;> simp [tokIds_append, tokIds, key]
  · rfl

theorem cleanup_append (a b : List Node) :
    cleanupEmptyNodes (a ++ b) = cleanupEmptyNodes a ++ cleanupEmptyNodes b := by
  simp [cleanupEmptyNodes, List.filter_append]

theorem cleanup_idem (d : List Node) :
    cleanupEmptyNodes (cleanupEmptyNodes d) = cleanupEmptyNodes d := by
  unfold cleanupEmptyNodes
  rw [List.filter_filter]
  congr 1
  funext n
  cases n <;> simp

theorem cleanup_stripEndRev (l : List Node) :
    cleanupEmptyNodes (stripEndRev l) = cleanupEmptyNodes l := by
  induction l using stripEndRev.induct
  all_goals simp_all [stripEndRev, cleanupEmptyNodes, List.filter_cons]

theorem cleanup_reverse (d : List Node) :
    cleanupEmptyNodes d.reverse = (cleanupEmptyNodes d).reverse := by
  simp [cleanupEmptyNodes, List.filter_reverse]

theorem cleanup_ensure (d : List Node) :
    cleanupEmptyNodes (ensureInputArea d) = cleanupEmptyNodes d := by
  have key : cleanupEmptyNodes (stripEndRev d.reverse).reverse = cleanupEmptyNodes d := by
    rw [cleanup_reverse, cleanup_stripEndRev, ← cleanup_reverse, List.reverse_reverse]
  unfold ensureInputArea
  split
  · split
    · rw [cleanup_append, key]; simp [cleanupEmptyNodes]
    · rw [cleanup_append, key]; simp [cleanupEmptyNodes]
    · exact key
  · rfl

/-! ## C5 — Enter without modifier emits submit and leaves the document
unchanged -/

/-- C5: for every state, an Enter key event with no Ctrl/Cmd modifier
while not composing prevents default, emits only the submit (`enter`)
signal, and leaves the state (text and tokens) unchanged. -/
theorem enter_emits_submit_without_mutation (e : KeyEvt) (sel : Option Sel) (st : St)
    (hc : e.code = "Enter".toList) (hco : e.isComposing = false)
    (hctrl : e.ctrlKey = false) (hmeta : e.metaKey = false) :
    handleKeydown e sel st = (st, [Ev.enter], true) := by
  unfold handleKeydown
  rw [if_pos ⟨hc, hco⟩, if_neg]
  simp [hctrl, hmeta]

/-- Witness for C5 at a concrete non-empty document. -/
theorem enter_emits_submit_without_mutation_witness :
    handleKeydown ⟨"Enter".toList, false, false, false, 13⟩ none ⟨[Node.text ['h', 'i']], []⟩
      = (⟨[Node.text ['h', 'i']], []⟩, [Ev.enter], true) :=
  enter_emits_submit_without_mutation _ _ _ rfl rfl rfl rfl

/-! ## C8 — ArrowUp emission is NOT conditioned on emptiness -/

/-- C8 (counterexample): an ArrowUp event on a document with non-empty
flattened text still emits the `arrow-up` (recall-previous) signal, so the
emission is not conditioned on emptiness of the flattened text. -/
theorem arrow_up_not_conditioned_on_empty :
    handleKeydown ⟨"ArrowUp".toList, false, false, false, 38⟩ none ⟨[Node.text ['h', 'i']], []⟩
      = (⟨[Node.text ['h', 'i']], []⟩, [Ev.arrowUp], false)
    ∧ flatText [Node.text ['h', 'i']] ≠ [] := by
  constructor
  · decide
  · decide

/-- C8 (amended): `handleKeydown` emits `arrow-up` on every event with
`keyCode` 38 that does not take the Enter branch, regardless of the
document's content; the emptiness check lives in the host page
(`ChatPage.vue`, `handleArrowUpKey`), not in the component. -/
theorem arrow_up_always_emitted (e : KeyEvt) (sel : Option Sel) (st : St)
    (h38 : e.keyCode = 38) (hne : ¬(e.code = "Enter".toList ∧ e.isComposing = false)) :
    handleKeydown e sel st = (st, [Ev.arrowUp], false) := by
  unfold handleKeydown
  rw [if_neg hne, if_pos h38]

/-- Witness for the amended C8, on a non-empty document. -/
theorem arrow_up_always_emitted_witness :
    handleKeydown ⟨"ArrowUp".toList, false, false, false, 38⟩ none ⟨[Node.text ['h', 'i']], []⟩
      = (⟨[Node.text ['h', 'i']], []⟩, [Ev.arrowUp], false) :=
  arrow_up_always_emitted _ _ _ rfl (by decide)

/-! ## C9 — Inserting an already-present token id is a structural no-op -/

/-- C9: when the document already holds a token with the resource's id
(and the state is one the component reaches, where every attached tag id
is a map key), `insertResourceTag` changes nothing: no exception (the
model is total), no second token, no change to the node sequence or to the
map, and no event. -/
theorem insert_duplicate_id_is_noop (sel : Option Sel) (r : Resource) (st : St)
    (hmem : Node.tok r.id ∈ st.doc) (hcov : mapCovers st) :
    insertResourceTag sel r st = (st, []) := by
  unfold insertResourceTag
  rw [if_pos (hcov _ hmem)]

/-- Witness for C9 at a concrete document holding the token. -/
theorem insert_duplicate_id_is_noop_witness :
    insertResourceTag none ⟨['r'], RType.file, none⟩
        ⟨[Node.tok ['r'], Node.text ['x']], [['r']]⟩
      = (⟨[Node.tok ['r'], Node.text ['x']], [['r']]⟩, []) :=
  insert_duplicate_id_is_noop _ _ _ (by decide)
    (by intro id h; simp at h; simp [h])

/-! ## Lemmas about flattened text and the clear-versus-cleanup branch -/

theorem flatText_text (s : Str) (rest : List Node) :
    flatText (Node.text s :: rest) = s ++ flatText rest := rfl

theorem flatText_tok (id : Str) (rest : List Node) :
    flatText (Node.tok id :: rest) = flatText rest := rfl

theorem flatText_br (rest : List Node) : flatText (Node.br :: rest) = flatText rest := rfl

theorem whiteOnly_append (a b : Str) : whiteOnly (a ++ b) ↔ whiteOnly a ∧ whiteOnly b := by
  simp [whiteOnly, or_imp, forall_and]

theorem clear_eq_cleanup (d : List Node) (h : clearCond d) : cleanupEmptyNodes d = [] := by
  induction d with
  | nil => rfl
  | cons n rest ih =>
      rcases h with ⟨ht, hw⟩
      cases n with
      | text s =>
          rw [flatText_text, whiteOnly_append] at hw
          have hrest : clearCond rest := ⟨by simpa [hasTags, tokIds] using ht, hw.2⟩
          simp [cleanupEmptyNodes, List.filter_cons, hw.1] at ih ⊢
          exact ih hrest
      | tok id => exact absurd (by simp [hasTags, tokIds]) ht
      | br =>
          have hrest : clearCond rest := ⟨by simpa [hasTags, tokIds] using ht, hw⟩
          simp [cleanupEmptyNodes, List.filter_cons] at ih ⊢
          exact ih hrest

theorem settle_eq_cleanup (d : List Node) :
    (if clearCond d then [] else cleanupEmptyNodes d) = cleanupEmptyNodes d := by
  split
  · exact (clear_eq_cleanup d (by assumption)).symm
  · rfl

theorem handleBackspace_succ (i : Nat) (st : St) :
    handleBackspace (some (Sel.inText (i + 1) 0)) st
      = match st.doc.get? i with
        | some (Node.tok id) =>
            if id = [] then (st, [], true)
            else ((removeResource id st).1, (removeResource id st).2, true)
        | _ => (st, [], false) := rfl

theorem eraseFirstTok_append (pre : List Node) (tid : Str) (rest : List Node)
    (h : Node.tok tid ∉ pre) :
    eraseFirstTok (pre ++ Node.tok tid :: rest) tid = pre ++ rest := by
  induction pre with
  | nil => simp [eraseFirstTok]
  | cons n pre ih =>
      simp only [List.mem_cons, not_or] at h
      simp [eraseFirstTok, Ne.symm h.1, ih h.2]

/-! ## C4 — Backspace at the right edge of a token -/

/-- C4 (counterexample): with the caret at offset 0 of the text run right
of the token, backspace removes the token, but the deferred cleanup also
drops the whitespace-only text run elsewhere in the document, so the other
content is not byte-for-byte unchanged. -/
theorem backspace_not_byte_for_byte :
    (handleBackspace (some (Sel.inText 2 0))
        ⟨[Node.text [' '], Node.tok ['r'], Node.text ['b']], [['r']]⟩).1.doc
      = [Node.text ['b']]
    ∧ [Node.text ['b']] ≠ [Node.text [' '], Node.text ['b']] := by
  constructor
  · decide
  · decide

/-- C4 (amended): backspace with the caret collapsed at offset 0 of the
child right of a token (in a reachable state, its id keyed and unique)
prevents default, removes exactly that token and emits `resource-removed`;
the deferred pass then applies `cleanupEmptyNodes` to the rest, so the
other nodes survive except whitespace-only text runs and `br`s (and when
nothing non-whitespace remains at all the document is cleared, which
coincides with the cleanup); in particular the token sequence of the rest
is untouched, and when the cleanup keeps every remaining node the rest is
byte-for-byte unchanged. -/
theorem backspace_removes_token_up_to_cleanup (pre post : List Node) (tid s : Str) (st : St)
    (hdoc : st.doc = pre ++ Node.tok tid :: Node.text s :: post)
    (hpre : Node.tok tid ∉ pre) (htid : tid ≠ []) (hcov : mapCovers st) :
    handleBackspace (some (Sel.inText (pre.length + 1) 0)) st
      = (⟨cleanupEmptyNodes (pre ++ Node.text s :: post), st.rmap.filter fun k => k ≠ tid⟩,
         [Ev.updateModelValue (getContent (pre ++ Node.text s :: post)),
          Ev.resourceRemoved tid],
         true)
    ∧ tokIds (cleanupEmptyNodes (pre ++ Node.text s :: post)) = tokIds pre ++ tokIds post
    ∧ (cleanupEmptyNodes (pre ++ Node.text s :: post) = pre ++ Node.text s :: post →
        (handleBackspace (some (Sel.inText (pre.length + 1) 0)) st).1.doc
          = pre ++ Node.text s :: post) := by
  have hmem : Node.tok tid ∈ st.doc := by rw [hdoc]; simp
  have hget : st.doc.get? pre.length = some (Node.tok tid) := by
    rw [hdoc]
    rw [List.get?_eq_getElem?, List.getElem?_append_right (Nat.le_refl _)]
    simp
  have herase : eraseFirstTok st.doc tid = pre ++ Node.text s :: post := by
    rw [hdoc]; exact eraseFirstTok_append pre tid _ hpre
  have hrm : removeResource tid st
      = (⟨cleanupEmptyNodes (pre ++ Node.text s :: post), st.rmap.filter fun k => k ≠ tid⟩,
         [Ev.updateModelValue (getContent (pre ++ Node.text s :: post)),
          Ev.resourceRemoved tid]) := by
    unfold removeResource
    rw [if_pos ⟨hcov _ hmem, hmem⟩, herase]
    rw [settle_eq_cleanup]
  have hb : handleBackspace (some (Sel.inText (pre.length + 1) 0)) st
      = ((removeResource tid st).1, (removeResource tid st).2, true) := by
    rw [handleBackspace_succ, hget]
    simp [htid]
  refine ⟨?_, ?_, ?_⟩
  · rw [hb, hrm]
  · rw [cleanup_append, tokIds_append, tokIds_cleanup, tokIds_cleanup]
    simp [tokIds]
  · intro hkeep
    rw [hb, hrm]
    exact hkeep

/-- Witness for the amended C4: a concrete document where the cleanup
keeps everything, so the removal is exact. -/
theorem backspace_removes_token_up_to_cleanup_witness :
    handleBackspace (some (Sel.inText 1 0))
        ⟨[Node.tok ['r'], Node.text ['b']], [['r']]⟩
      = (⟨[Node.text ['b']], []⟩,
         [Ev.updateModelValue (getContent [Node.text ['b']]), Ev.resourceRemoved ['r']],
         true) := by
  have h := backspace_removes_token_up_to_cleanup [] [] ['r'] ['b']
    ⟨[Node.tok ['r'], Node.text ['b']], [['r']]⟩ rfl (by decide) (by decide)
    (by intro id h; simp at h; simp [h])
  simpa [cleanupEmptyNodes, whiteOnly] using h.1

/-! ## Map-key and insertion lemmas -/

theorem mem_addKey (m : List Str) (id x : Str) : x ∈ addKey m id ↔ x = id ∨ x ∈ m := by
  unfold addKey
  split
  · constructor
    · exact fun h => Or.inr h
    · rintro (rfl | h)
      · assumption
      · assumption
  · simp [or_comm]

theorem mem_foldl_addKey (l : List Str) (m : List Str) (x : Str) :
    x ∈ l.foldl addKey m ↔ x ∈ m ∨ x ∈ l := by
  induction l generalizing m with
  | nil => simp
  | cons a l ih =>
      simp only [List.foldl_cons, ih, mem_addKey, List.mem_cons]
      tauto

theorem tokIds_insTagAt (d : List Node) (sel : Option Sel) (x : Str) :
    ∃ u v, tokIds d = u ++ v ∧ tokIds (insTagAt d sel x).1 = u ++ x :: v := by
  match sel with
  | none =>
      refine ⟨tokIds d, [], by simp, ?_⟩
      simp [insTagAt, tokIds_append, tokIds]
  | some (Sel.inDiv g) =>
      refine ⟨tokIds (d.take g), tokIds (d.drop g), ?_, ?_⟩
      · conv_lhs => rw [← List.take_append_drop g d]
        rw [tokIds_append]
      · simp [insTagAt, tokIds_append, tokIds]
  | some (Sel.inText i off) =>
      rw [show insTagAt d (some (Sel.inText i off)) x
            = match d.get? i with
              | some (Node.text s) =>
                  (d.take i ++ [Node.text (s.take off), Node.tok x, Node.text [' '],
                     Node.text (s.drop off)] ++ d.drop (i + 1), some (Sel.inDiv (i + 3)))
              | _ => (d.take i ++ [Node.tok x, Node.text [' ']] ++ d.drop i,
                  some (Sel.inDiv (i + 2))) from rfl]
      cases hi : d.get? i with
      | some n =>
          cases n with
          | text s =>
              have hlt : i < d.length := by
                rw [List.get?_eq_getElem?] at hi
                by_contra hge
                rw [List.getElem?_eq_none (by omega)] at hi
                cases hi
              have hdi : d[i] = Node.text s := by
                rw [List.get?_eq_getElem?, List.getElem?_eq_getElem hlt] at hi
                exact Option.some_inj.mp hi
              refine ⟨tokIds (d.take i), tokIds (d.drop (i + 1)), ?_, ?_⟩
              · conv_lhs => rw [← List.take_append_drop i d]
                rw [tokIds_append, List.drop_eq_getElem_cons hlt, hdi]
                simp [tokIds]
              · simp [tokIds_append, tokIds]
          | tok y =>
              refine ⟨tokIds (d.take i), tokIds (d.drop i), ?_, ?_⟩
              · conv_lhs => rw [← List.take_append_drop i d]
                rw [tokIds_append]
              · simp [tokIds_append, tokIds]
          | br =>
              refine ⟨tokIds (d.take i), tokIds (d.drop i), ?_, ?_⟩
              · conv_lhs => rw [← List.take_append_drop i d]
                rw [tokIds_append]
              · simp [tokIds_append, tokIds]
      | none =>
          refine ⟨tokIds (d.take i), tokIds (d.drop i), ?_, ?_⟩
          · conv_lhs => rw [← List.take_append_drop i d]
            rw [tokIds_append]
          · simp [tokIds_append, tokIds]

theorem mem_tokIds_insTagAt (d : List Node) (sel : Option Sel) (x id : Str) :
    id ∈ tokIds (insTagAt d sel x).1 ↔ id = x ∨ id ∈ tokIds d := by
  obtain ⟨u, v, hd, hins⟩ := tokIds_insTagAt d sel x
  rw [hins, hd]
  simp [List.mem_append, or_comm, or_left_comm]

theorem nodup_tokIds_insTagAt (d : List Node) (sel : Option Sel) (x : Str)
    (hx : x ∉ tokIds d) (hnd : (tokIds d).Nodup) :
    (tokIds (insTagAt d sel x).1).Nodup := by
  obtain ⟨u, v, hd, hins⟩ := tokIds_insTagAt d sel x
  rw [hins]
  rw [hd] at hx hnd
  rw [List.nodup_middle]
  exact List.Nodup.cons hx hnd

theorem set_at_append (pre : List Node) (y : Node) (post : List Node) (z : Node) :
    (pre ++ y :: post).set pre.length z = pre ++ z :: post := by
  induction pre with
  | nil => rfl
  | cons n pre ih => simp [List.set, ih]

theorem tokIds_eraseFirstTok (d : List Node) (id : Str) :
    tokIds (eraseFirstTok d id) = (tokIds d).erase id := by
  induction d with
  | nil => rfl
  | cons n rest ih =>
      by_cases hn : n = Node.tok id
      · subst hn
        simp [eraseFirstTok, tokIds, List.erase_cons_head]
      · rw [show eraseFirstTok (n :: rest) id = n :: eraseFirstTok rest id by
          simp [eraseFirstTok, hn]]
        cases n with
        | text s => simpa [tokIds] using ih
        | br => simpa [tokIds] using ih
        | tok y =>
            have hy : y ≠ id := fun h => hn (by rw [h])
            simp [tokIds, List.erase_cons_tail, hy, ih]

theorem tokIds_prune (R : List Resource) (d : List Node) :
    tokIds (pruneDoc R d)
      = (tokIds d).filter fun id => (R.find? fun r => r.id = id).isSome := by
  unfold pruneDoc
  induction d with
  | nil => rfl
  | cons n rest ih =>
      cases n with
      | text s => simpa [List.filter_cons, tokIds] using ih
      | br => simpa [List.filter_cons, tokIds] using ih
      | tok y =>
          by_cases hy : (R.find? fun r => r.id = y).isSome <;>
            simp [List.filter_cons, tokIds, hy, ih]

theorem findTagAux_some (R : List Resource) (r : Resource) (d : List Node) (i j : Nat) (y : Str)
    (h : findTagAux R r d i = some (j, y)) :
    ∃ pre post, d = pre ++ Node.tok y :: post ∧ j = i + pre.length
      ∧ tagMatches R r y = true := by
  induction d generalizing i with
  | nil => cases h
  | cons n rest ih =>
      cases n with
      | text s =>
          obtain ⟨pre, post, hd, hj, hm⟩ := ih (i + 1) h
          exact ⟨Node.text s :: pre, post, by rw [hd]; rfl, by simp [hj]; omega, hm⟩
      | br =>
          obtain ⟨pre, post, hd, hj, hm⟩ := ih (i + 1) h
          exact ⟨Node.br :: pre, post, by rw [hd]; rfl, by simp [hj]; omega, hm⟩
      | tok z =>
          by_cases hz : tagMatches R r z
          · rw [show findTagAux R r (Node.tok z :: rest) i = some (i, z) by
              simp [findTagAux, hz]] at h
            obtain ⟨hj, hy⟩ : i = j ∧ z = y := by
              constructor <;> [exact congrArg Prod.fst (Option.some_inj.mp h);
                exact congrArg Prod.snd (Option.some_inj.mp h)]
            subst hj; subst hy
            exact ⟨[], rest, rfl, by simp, hz⟩
          · rw [show findTagAux R r (Node.tok z :: rest) i
                = findTagAux R r rest (i + 1) by simp [findTagAux, hz]] at h
            obtain ⟨pre, post, hd, hj, hm⟩ := ih (i + 1) h
            exact ⟨Node.tok z :: pre, post, by rw [hd]; rfl, by simp [hj]; omega, hm⟩

theorem mergeIns_preserves (a : MSt) (r : Resource)
    (hcov : ∀ id, id ∈ tokIds a.doc → id ∈ a.rmap)
    (hnd : (tokIds a.doc).Nodup)
    (hrid : r.id ∉ tokIds a.doc) :
    (∀ id, id ∈ tokIds (mergeIns a r).doc → id ∈ (mergeIns a r).rmap)
    ∧ (tokIds (mergeIns a r).doc).Nodup := by
  constructor
  · intro id hid
    rw [show (mergeIns a r).doc = (insTagAt a.doc a.sel r.id).1 from rfl] at hid
    rw [show (mergeIns a r).rmap = addKey a.rmap r.id from rfl, mem_addKey]
    rcases (mem_tokIds_insTagAt a.doc a.sel r.id id).mp hid with h | h
    · exact Or.inl h
    · exact Or.inr (hcov _ h)
  · exact nodup_tokIds_insTagAt a.doc a.sel r.id hrid hnd

theorem mergeStep_preserves (R : List Resource) (r : Resource) (a : MSt)
    (hcov : ∀ id, id ∈ tokIds a.doc → id ∈ a.rmap)
    (hnd : (tokIds a.doc).Nodup) :
    (∀ id, id ∈ tokIds (mergeStep R a r).doc → id ∈ (mergeStep R a r).rmap)
    ∧ (tokIds (mergeStep R a r).doc).Nodup := by
  unfold mergeStep
  by_cases h1 : r.id ∈ a.rmap
  · rw [if_pos h1]
    exact ⟨hcov, hnd⟩
  · rw [if_neg h1]
    have hrid : r.id ∉ tokIds a.doc := fun hm => h1 (hcov _ hm)
    by_cases h2 : r.rtype = RType.code ∧ r.filePath.getD [] ≠ []
    · rw [if_pos h2]
      split
      next p hft =>
          have hfa : findTagAux R r a.doc 0 = some (p.1, p.2) := by
            unfold findTagByFilePath at hft
            rw [if_pos h2] at hft
            exact hft
          obtain ⟨pre, post, hd, hj, _⟩ := findTagAux_some R r a.doc 0 p.1 p.2 hfa
          have hj' : p.1 = pre.length := by omega
          by_cases h3 : p.2 ≠ r.id
          · rw [if_pos h3]
            have hset : a.doc.set p.1 (Node.tok r.id) = pre ++ Node.tok r.id :: post := by
              rw [hd, hj', set_at_append]
            have htokOld : tokIds a.doc = tokIds pre ++ p.2 :: tokIds post := by
              rw [hd, tokIds_append]; rfl
            have htokNew : tokIds (a.doc.set p.1 (Node.tok r.id))
                = tokIds pre ++ r.id :: tokIds post := by
              rw [hset, tokIds_append]; rfl
            have hndOld : (p.2 :: (tokIds pre ++ tokIds post)).Nodup := by
              rw [← List.nodup_middle, ← htokOld]; exact hnd
            have hridNotIn : r.id ∉ tokIds pre ++ tokIds post := by
              intro hmem
              apply hrid
              rw [htokOld]
              rcases List.mem_append.mp hmem with h | h
              · exact List.mem_append.mpr (Or.inl h)
              · exact List.mem_append.mpr (Or.inr (List.mem_cons_of_mem _ h))
            constructor
            · intro id hid
              rw [htokNew] at hid
              rw [mem_addKey]
              rcases List.mem_append.mp hid with h | h
              · refine Or.inr ?_
                rw [List.mem_filter]
                have hidOld : id ≠ p.2 := by
                  intro heq
                  exact (List.nodup_cons.mp hndOld).1
                    (heq ▸ List.mem_append.mpr (Or.inl h))
                refine ⟨hcov _ (by rw [htokOld]; exact List.mem_append.mpr (Or.inl h)), ?_⟩
                simp [hidOld]
              · rcases List.mem_cons.mp h with h | h
                · exact Or.inl h
                · refine Or.inr ?_
                  rw [List.mem_filter]
                  have hidOld : id ≠ p.2 := by
                    intro heq
                    exact (List.nodup_cons.mp hndOld).1
                      (heq ▸ List.mem_append.mpr (Or.inr h))
                  refine ⟨hcov _ (by
                    rw [htokOld]
                    exact List.mem_append.mpr (Or.inr (List.mem_cons_of_mem _ h))), ?_⟩
                  simp [hidOld]
            · rw [htokNew, List.nodup_middle]
              exact List.Nodup.cons hridNotIn (List.nodup_cons.mp hndOld).2
          · rw [if_neg h3]
            exact ⟨hcov, hnd⟩
      next => exact mergeIns_preserves a r hcov hnd hrid
    · rw [if_neg h2]
      exact mergeIns_preserves a r hcov hnd hrid

theorem foldl_mergeStep_preserves (R L : List Resource) (a : MSt)
    (hcov : ∀ id, id ∈ tokIds a.doc → id ∈ a.rmap)
    (hnd : (tokIds a.doc).Nodup) :
    (∀ id, id ∈ tokIds (L.foldl (mergeStep R) a).doc → id ∈ (L.foldl (mergeStep R) a).rmap)
    ∧ (tokIds (L.foldl (mergeStep R) a).doc).Nodup := by
  induction L generalizing a with
  | nil => exact ⟨hcov, hnd⟩
  | cons r L ih =>
      obtain ⟨h1, h2⟩ := mergeStep_preserves R r a hcov hnd
      exact ih (mergeStep R a r) h1 h2

theorem prune_covers (R : List Resource) (st : St) (hcov : mapCovers st) :
    ∀ id, id ∈ tokIds (pruneDoc R st.doc) → id ∈ pruneMap R st := by
  intro id hid
  rw [tokIds_prune, List.mem_filter] at hid
  obtain ⟨hmem, hsome⟩ := hid
  unfold pruneMap
  rw [List.mem_filter]
  refine ⟨hcov _ ((mem_tokIds _ _).mp hmem), ?_⟩
  simp only [decide_eq_true_eq, not_and]
  intro hnone
  rw [hnone] at hsome
  cases hsome

theorem prune_nodup (R : List Resource) (st : St) (hnd : (tokIds st.doc).Nodup) :
    (tokIds (pruneDoc R st.doc)).Nodup := by
  rw [tokIds_prune]
  exact hnd.filter _

theorem tokIds_updSettle (d : List Node) : tokIds (updSettle d) = if clearCond d then [] else tokIds d := by
  unfold updSettle
  split
  · rfl
  · rw [tokIds_ensure, tokIds_cleanup]

theorem updateResources_covers (R : List Resource) (sel : Option Sel) (st : St)
    (hcov : mapCovers st) (hnd : (tokIds st.doc).Nodup) :
    mapCovers (updateResources R sel st).1 := by
  intro id hid
  obtain ⟨hfcov, _⟩ := foldl_mergeStep_preserves R R ⟨pruneDoc R st.doc, pruneMap R st, sel, []⟩
    (prune_covers R st hcov) (prune_nodup R st hnd)
  rw [← mem_tokIds] at hid
  rw [show (updateResources R sel st).1.doc
      = updSettle (R.foldl (mergeStep R) ⟨pruneDoc R st.doc, pruneMap R st, sel, []⟩).doc
      from rfl, tokIds_updSettle] at hid
  split at hid
  · cases hid
  · exact hfcov _ hid

theorem removeResource_covers (id : Str) (st : St)
    (hcov : mapCovers st) (hnd : (tokIds st.doc).Nodup) :
    mapCovers (removeResource id st).1 := by
  unfold removeResource
  split
  · intro x hx
    rw [← mem_tokIds] at hx
    rw [show (⟨if clearCond (eraseFirstTok st.doc id) then []
        else cleanupEmptyNodes (eraseFirstTok st.doc id),
        st.rmap.filter fun k => k ≠ id⟩ : St).doc
        = if clearCond (eraseFirstTok st.doc id) then []
          else cleanupEmptyNodes (eraseFirstTok st.doc id) from rfl,
      settle_eq_cleanup, tokIds_cleanup, tokIds_eraseFirstTok] at hx
    have hxid : x ≠ id ∧ x ∈ tokIds st.doc := (hnd.mem_erase_iff).mp hx
    rw [show (⟨if clearCond (eraseFirstTok st.doc id) then []
        else cleanupEmptyNodes (eraseFirstTok st.doc id),
        st.rmap.filter fun k => k ≠ id⟩ : St).rmap
        = st.rmap.filter fun k => k ≠ id from rfl, List.mem_filter]
    refine ⟨hcov _ ((mem_tokIds _ _).mp hxid.2), by simp [hxid.1]⟩
  · exact hcov

theorem setContent_covers (R : List Resource) (content : Str) (st : St) :
    mapCovers (setContent R content st) := by
  unfold setContent
  split
  · intro id hid
    unfold parseContentWithResources at hid ⊢
    rw [← mem_tokIds, tokIds_ensure] at hid
    rw [mem_foldl_addKey]
    exact Or.inr hid
  · intro id hid
    unfold textNode? at hid
    split at hid <;> simp at hid

theorem removeResource_emits_iff (id : Str) (st : St) (hcov : mapCovers st) :
    Ev.resourceRemoved id ∈ (removeResource id st).2 ↔ Node.tok id ∈ st.doc := by
  unfold removeResource
  split
  · next h => simp [h.2]
  · next h =>
      simp only [List.not_mem_nil, false_iff]
      intro hmem
      exact h ⟨hcov _ hmem, hmem⟩

theorem removeResource_mutates_iff (id : Str) (st : St) (hcov : mapCovers st) :
    (removeResource id st).1.doc ≠ st.doc ↔ Node.tok id ∈ st.doc := by
  constructor
  · intro hne
    by_contra hmem
    apply hne
    unfold removeResource
    rw [if_neg fun hc => hmem hc.2]
  · intro hmem
    have hlen : (tokIds (removeResource id st).1.doc).length < (tokIds st.doc).length := by
      unfold removeResource
      rw [if_pos ⟨hcov _ hmem, hmem⟩]
      rw [show (⟨if clearCond (eraseFirstTok st.doc id) then []
          else cleanupEmptyNodes (eraseFirstTok st.doc id),
          st.rmap.filter fun k => k ≠ id⟩ : St).doc
          = if clearCond (eraseFirstTok st.doc id) then []
            else cleanupEmptyNodes (eraseFirstTok st.doc id) from rfl,
        settle_eq_cleanup, tokIds_cleanup, tokIds_eraseFirstTok]
      rw [List.length_erase_of_mem ((mem_tokIds _ _).mpr hmem)]
      have hpos : 0 < (tokIds st.doc).length :=
        List.length_pos.mpr (by
          intro hnil
          rw [← mem_tokIds, hnil] at hmem
          cases hmem)
      omega
    intro heq
    rw [heq] at hlen
    omega

/-! ## C10 — the resourcesMap / attached-tag invariant -/

/-- C10 (counterexample): `parseContentWithResources` (through
`setContent`) clears the editable surface but not `resourcesMap`, so after
parsing a content whose markers no longer include `r1`, the key `r1`
remains in the map while no attached tag carries it — the claimed key-set
equality fails. -/
theorem stale_map_key_after_parse :
    (setContent [⟨['r', '2'], RType.file, none⟩] (DELIM ++ ['r', '2'] ++ DELIM)
        ⟨[Node.tok ['r', '1']], [['r', '1']]⟩).rmap = [['r', '1'], ['r', '2']]
    ∧ Node.tok ['r', '1']
        ∉ (setContent [⟨['r', '2'], RType.file, none⟩] (DELIM ++ ['r', '2'] ++ DELIM)
            ⟨[Node.tok ['r', '1']], [['r', '1']]⟩).doc := by
  constructor
  · decide
  · decide

/-- C10 (amended): after every operation the key set of `resourcesMap`
CONTAINS every attached tag id (`setContent`/parse unconditionally; the
mutators provided the state already satisfied the inclusion, with unique
attached ids); the reverse inclusion fails because parse and plain
`setContent` leave stale keys behind.  `removeResource(id)` emits
`resource-removed` and mutates the document exactly when an attached tag
for `id` exists (the stale-entry case is harmless because a stale
element's `parentNode` is gone). -/
theorem resources_map_invariant :
    (∀ R content st, mapCovers (setContent R content st))
    ∧ (∀ sel r st, mapCovers st → mapCovers (insertResourceTag sel r st).1)
    ∧ (∀ id st, mapCovers st → (tokIds st.doc).Nodup →
        mapCovers (removeResource id st).1)
    ∧ (∀ R sel st, mapCovers st → (tokIds st.doc).Nodup →
        mapCovers (updateResources R sel st).1)
    ∧ (∀ id st, mapCovers st →
        (Ev.resourceRemoved id ∈ (removeResource id st).2 ↔ Node.tok id ∈ st.doc))
    ∧ (∀ id st, mapCovers st →
        ((removeResource id st).1.doc ≠ st.doc ↔ Node.tok id ∈ st.doc)) := by
  refine ⟨setContent_covers, ?_, removeResource_covers, updateResources_covers,
    removeResource_emits_iff, removeResource_mutates_iff⟩
  intro sel r st hcov
  unfold insertResourceTag
  split
  · exact hcov
  · intro id hid
    rw [show (⟨ensureInputArea (insTagAt st.doc sel r.id).1, addKey st.rmap r.id⟩ : St).doc
        = ensureInputArea (insTagAt st.doc sel r.id).1 from rfl] at hid
    rw [← mem_tokIds, tokIds_ensure] at hid
    rw [show (⟨ensureInputArea (insTagAt st.doc sel r.id).1, addKey st.rmap r.id⟩ : St).rmap
        = addKey st.rmap r.id from rfl, mem_addKey]
    rcases (mem_tokIds_insTagAt st.doc sel r.id id).mp hid with h | h
    · exact Or.inl h
    · exact Or.inr (hcov _ ((mem_tokIds _ _).mp h))

/-- Witness for C10: a concrete application of the removal-iff conjunct. -/
theorem resources_map_invariant_witness :
    Ev.resourceRemoved ['r'] ∈ (removeResource ['r'] ⟨[Node.tok ['r']], [['r']]⟩).2 :=
  (resources_map_invariant.2.2.2.2.1 ['r'] ⟨[Node.tok ['r']], [['r']]⟩
    (by intro id h; simp at h; simp [h])).mpr (by decide)

/-! ## C3 — the path re-key scenario for an id absent from the new list -/

theorem pruneDoc_of_no_toks (R : List Resource) (d : List Node) (h : tokIds d = []) :
    pruneDoc R d = d := by
  induction d with
  | nil => rfl
  | cons n rest ih =>
      cases n with
      | text s => simp [tokIds] at h; simp [pruneDoc, List.filter_cons] at ih ⊢; exact ih h
      | br => simp [tokIds] at h; simp [pruneDoc, List.filter_cons] at ih ⊢; exact ih h
      | tok y => simp [tokIds] at h

theorem findTagAux_of_no_toks (R : List Resource) (r : Resource) (d : List Node) (i : Nat)
    (h : tokIds d = []) : findTagAux R r d i = none := by
  induction d generalizing i with
  | nil => rfl
  | cons n rest ih =>
      cases n with
      | text s => simp [tokIds] at h; simp [findTagAux]; exact ih _ h
      | br => simp [tokIds] at h; simp [findTagAux]; exact ih _ h
      | tok y => simp [tokIds] at h

theorem stripEndRev_tok (id : Str) (l : List Node) :
    stripEndRev (Node.tok id :: l) = Node.tok id :: l := by
  simp [stripEndRev]

theorem ensure_append_tok (d : List Node) (id : Str) :
    ensureInputArea (d ++ [Node.tok id]) = d ++ [Node.tok id, Node.br] := by
  have htags : hasTags (d ++ [Node.tok id]) := by
    unfold hasTags
    rw [tokIds_append]
    simp [tokIds]
  unfold ensureInputArea
  rw [if_pos htags]
  rw [List.reverse_append]
  simp only [List.reverse_cons, List.reverse_nil, List.nil_append, List.singleton_append]
  rw [stripEndRev_tok, List.reverse_cons, List.getLast?_concat]
  simp

/-- C3 (counterexample): reconciling `[r2 (code, "A.TS")]` against a
document holding `token(r1)` (whose prior resource was code `"a.ts"`) and
the text `"x"` does NOT re-key the token in place: the prune pass removes
`token(r1)` first (the path lookup consults only the new list, so it can
never match a pruned tag), and a fresh token for `r2` is appended after
`"x"` — the token did not keep its position and was removed and
re-appended. -/
theorem rekey_not_in_place :
    (updateResources [⟨['r', '2'], RType.code, some ['A', '.', 'T', 'S']⟩] none
        ⟨[Node.tok ['r', '1'], Node.text ['x']], [['r', '1']]⟩).1.doc
      = [Node.text ['x'], Node.tok ['r', '2'], Node.br]
    ∧ [Node.text ['x'], Node.tok ['r', '2'], Node.br]
        ≠ [Node.tok ['r', '2'], Node.text ['x']] := by
  constructor
  · decide
  · decide

/-- C3 (amended): when the new list is `[r2]` with `r2` of type code with
a file path, and the document holds exactly one token, for an id `r1` not
in the new list (whatever its prior resource was — the code never consults
the previous list), the prune pass removes that token and its map key, the
path re-key cannot fire (no tag is left to match), and a fresh token for
`r2` is appended at the end (the surface being unfocused), followed by the
`br` pad; the document ends with exactly one token, with id `r2`, but the
token was removed and re-appended, not re-keyed in place. -/
theorem updateResources_rekey_scenario (A B : List Node) (r1 : Str) (r2 : Resource)
    (m : List Str)
    (hA : tokIds A = []) (hB : tokIds B = [])
    (hne : ¬ (r2.id = r1))
    (h2 : r2.rtype = RType.code ∧ r2.filePath.getD [] ≠ [])
    (hm : r2.id ∉ m) :
    (updateResources [r2] none ⟨A ++ Node.tok r1 :: B, m⟩).1.doc
      = cleanupEmptyNodes (A ++ B) ++ [Node.tok r2.id, Node.br]
    ∧ tokIds (updateResources [r2] none ⟨A ++ Node.tok r1 :: B, m⟩).1.doc = [r2.id] := by
  have hAB : tokIds (A ++ B) = [] := by rw [tokIds_append, hA, hB]; rfl
  have hprune : pruneDoc [r2] (A ++ Node.tok r1 :: B) = A ++ B := by
    unfold pruneDoc
    rw [List.filter_append, List.filter_cons]
    rw [show ((match Node.tok r1 with
        | Node.tok id => (List.find? (fun r => decide (r.id = id)) [r2]).isSome
        | _ => true) : Bool) = false by simp [List.find?, hne]]
    simp only [Bool.false_eq_true, if_false]
    have h1 := pruneDoc_of_no_toks [r2] A hA
    have h2 := pruneDoc_of_no_toks [r2] B hB
    unfold pruneDoc at h1 h2
    rw [h1, h2]
  have hm1 : r2.id ∉ pruneMap [r2] ⟨A ++ Node.tok r1 :: B, m⟩ := by
    intro hmem
    exact hm (List.mem_of_mem_filter hmem)
  have hfind : findTagByFilePath [r2] r2 (A ++ B) = none := by
    unfold findTagByFilePath
    rw [if_pos h2]
    exact findTagAux_of_no_toks [r2] r2 (A ++ B) 0 hAB
  have hstep : [r2].foldl (mergeStep [r2])
      ⟨pruneDoc [r2] (A ++ Node.tok r1 :: B),
       pruneMap [r2] ⟨A ++ Node.tok r1 :: B, m⟩, none, []⟩
      = mergeIns ⟨A ++ B, pruneMap [r2] ⟨A ++ Node.tok r1 :: B, m⟩, none, []⟩ r2 := by
    rw [List.foldl_cons, List.foldl_nil, hprune]
    unfold mergeStep
    rw [if_neg hm1, if_pos h2, hfind]
  have hdoc : (updateResources [r2] none ⟨A ++ Node.tok r1 :: B, m⟩).1.doc
      = updSettle ((A ++ B) ++ [Node.tok r2.id, Node.text [' ']]) := by
    rw [show (updateResources [r2] none ⟨A ++ Node.tok r1 :: B, m⟩).1.doc
        = updSettle ([r2].foldl (mergeStep [r2])
            ⟨pruneDoc [r2] (A ++ Node.tok r1 :: B),
             pruneMap [r2] ⟨A ++ Node.tok r1 :: B, m⟩, none, []⟩).doc from rfl]
    rw [hstep]
    rfl
  have hsettle : updSettle ((A ++ B) ++ [Node.tok r2.id, Node.text [' ']])
      = cleanupEmptyNodes (A ++ B) ++ [Node.tok r2.id, Node.br] := by
    unfold updSettle
    rw [if_neg (by
      intro hc
      apply hc.1
      unfold hasTags
      rw [tokIds_append, hAB]
      simp [tokIds])]
    rw [cleanup_append]
    rw [show cleanupEmptyNodes [Node.tok r2.id, Node.text [' ']] = [Node.tok r2.id] by
      simp [cleanupEmptyNodes, List.filter_cons, whiteOnly, jsWhite]]
    rw [show cleanupEmptyNodes (A ++ B) ++ [Node.tok r2.id]
        = cleanupEmptyNodes (A ++ B) ++ [Node.tok r2.id] from rfl]
    exact ensure_append_tok (cleanupEmptyNodes (A ++ B)) r2.id
  refine ⟨by rw [hdoc, hsettle], ?_⟩
  rw [hdoc, hsettle, tokIds_append, tokIds_cleanup, hAB]
  rfl

/-- Witness for the amended C3 at the counterexample's concrete state. -/
theorem updateResources_rekey_scenario_witness :
    (updateResources [⟨['r', '2'], RType.code, some ['A', '.', 'T', 'S']⟩] none
        ⟨[Node.tok ['r', '1'], Node.text ['x']], [['r', '1']]⟩).1.doc
      = [Node.text ['x'], Node.tok ['r', '2'], Node.br] := by
  have h := updateResources_rekey_scenario [] [Node.text ['x']] ['r', '1']
    ⟨['r', '2'], RType.code, some ['A', '.', 'T', 'S']⟩ [['r', '1']]
    (by decide) (by decide) (by decide) (by decide) (by decide)
  simp only [List.nil_append] at h
  rw [h.1]
  decide

/-! ## Delimiter-splitting lemmas -/

theorem splitOnD_eq_cons (c : Char) (rest : List Char) :
    splitOnD (c :: rest)
      = if DELIM <+: (c :: rest)
        then [] :: splitOnD ((c :: rest).drop DELIM.length)
        else match splitOnD rest with
          | [] => [[c]]
          | s :: ss => (c :: s) :: ss := by
  split
  · next h =>
      obtain ⟨t, ht⟩ := h
      rw [show DELIM ++ t
          = '【' :: '$' :: 'R' :: 'E' :: 'S' :: '$' :: '】' :: t from rfl] at ht
      obtain ⟨hc, hrest⟩ := List.cons.injEq .. ▸ ht
      subst hc
      subst hrest
      rfl
  · next h =>
      rw [splitOnD.eq_def]
      split
      · rename_i heq
        exact (List.cons_ne_nil c rest heq).elim
      · rename_i t heq
        refine absurd ⟨t, ?_⟩ h
        rw [show DELIM ++ t = '【' :: '$' :: 'R' :: 'E' :: 'S' :: '$' :: '】' :: t from rfl,
          ← heq]
      · rename_i heq
        injection heq with h1 h2
        subst h1
        subst h2
        rfl

theorem splitOnD_ne_nil (l : List Char) : splitOnD l ≠ [] := by
  cases l with
  | nil => simp [splitOnD]
  | cons c rest =>
      rw [splitOnD_eq_cons]
      split
      · simp
      · split <;> simp

theorem delim_no_border :
    ∀ k, 1 ≤ k → k ≤ 6 → DELIM.drop k ≠ DELIM.take (7 - k) := by decide

theorem dFree_cons (c : Char) (s : Str) (h : dFree (c :: s)) :
    dFree s ∧ ¬ DELIM <+: (c :: s) := by
  have hne : ¬ DELIM <+: (c :: s) := by
    intro hpre
    unfold dFree at h
    rw [splitOnD_eq_cons, if_pos hpre] at h
    injection h with h1 h2
    cases h1
  refine ⟨?_, hne⟩
  unfold dFree at h ⊢
  rw [splitOnD_eq_cons, if_neg hne] at h
  cases hsp : splitOnD s with
  | nil => exact absurd hsp (splitOnD_ne_nil s)
  | cons x xs =>
      rw [hsp] at h
      injection h with h1 h2
      injection h1 with _ h3
      rw [h3, h2]

theorem delim_not_prefix (s u : Str) (hs : dFree s) (hne : s ≠ []) :
    ¬ DELIM <+: s ++ (DELIM ++ u) := by
  intro hpre
  obtain ⟨t, ht⟩ := hpre
  rcases Nat.lt_or_ge s.length 7 with hk | hk
  · have hk1 : 1 ≤ s.length := List.length_pos.mpr hne
    have hsplit : DELIM.take s.length ++ (DELIM.drop s.length ++ t) = s ++ (DELIM ++ u) := by
      rw [← List.append_assoc, List.take_append_drop]
      exact ht
    have hlen : (DELIM.take s.length).length = s.length := by
      rw [List.length_take]
      simp only [DELIM, List.length_cons, List.length_nil]
      omega
    obtain ⟨h1, h2⟩ := List.append_inj hsplit hlen
    have hdlen : (DELIM.drop s.length).length = 7 - s.length := by
      simp [DELIM]
    have heq : DELIM.drop s.length = DELIM.take (7 - s.length) := by
      calc DELIM.drop s.length
          = (DELIM.drop s.length ++ t).take (7 - s.length) := (List.take_left' hdlen).symm
        _ = (DELIM ++ u).take (7 - s.length) := by rw [h2]
        _ = DELIM.take (7 - s.length) := List.take_append_of_le_length (by
              simp only [DELIM, List.length_cons, List.length_nil]
              omega)
    exact delim_no_border s.length hk1 (by omega) heq
  · have hsplit : DELIM ++ t = s.take 7 ++ (s.drop 7 ++ (DELIM ++ u)) := by
      rw [← List.append_assoc, List.take_append_drop]
      exact ht
    have hlen : (DELIM : Str).length = (s.take 7).length := by
      rw [List.length_take]
      simp only [DELIM, List.length_cons, List.length_nil]
      omega
    obtain ⟨h1, _⟩ := List.append_inj hsplit hlen
    have hpre2 : DELIM <+: s := ⟨s.drop 7, by rw [h1]; exact List.take_append_drop 7 s⟩
    cases s with
    | nil => exact hne rfl
    | cons c s' => exact (dFree_cons c s' hs).2 hpre2

theorem splitOnD_text (s : Str) (hs : dFree s) (u : Str) :
    splitOnD (s ++ (DELIM ++ u)) = s :: splitOnD u := by
  induction s with
  | nil => rfl
  | cons c s' ih =>
      have hfree := dFree_cons c s' hs
      have hnp : ¬ DELIM <+: (c :: s') ++ (DELIM ++ u) :=
        delim_not_prefix (c :: s') u hs (List.cons_ne_nil c s')
      rw [List.cons_append, splitOnD_eq_cons,
        if_neg (show ¬ DELIM <+: c :: (s' ++ (DELIM ++ u)) from hnp), ih hfree.1]

/-! ## C6 — unknown markers degrade to literal text, parsing is total -/

theorem splitOnD_single_marker (id : Str) (hfree : dFree id) :
    splitOnD (DELIM ++ id ++ DELIM) = [[], id, []] := by
  have h2 : splitOnD (id ++ (DELIM ++ ([] : Str))) = id :: splitOnD [] :=
    splitOnD_text id hfree []
  rw [List.append_nil] at h2
  have h1 : splitOnD (([] : Str) ++ (DELIM ++ (id ++ DELIM)))
      = [] :: splitOnD (id ++ DELIM) := splitOnD_text [] rfl (id ++ DELIM)
  rw [List.nil_append] at h1
  rw [List.append_assoc, h1, h2]
  rfl

/-- C6: the parse of a single delimiter-wrapped marker whose id is not in
the resource list (stated for any delimiter-free id) is the single text
node holding the literal marker string, delimiters included; the model is
a total function, so no input can make it throw.  This covers both the
case where the regex captures the candidate (unknown id → literal
`match[0]` retained) and the case where a line terminator prevents the
capture (the text is kept verbatim as the trailing remainder). -/
theorem parse_unknown_marker (R : List Resource) (id : Str) (st : St)
    (hfree : dFree id) (hnone : ∀ r ∈ R, ¬ (r.id = id)) :
    (parseContentWithResources R (DELIM ++ id ++ DELIM) st).doc
      = [Node.text (DELIM ++ id ++ DELIM)] := by
  have hfind : (R.find? fun r => r.id = id) = none := by
    rw [List.find?_eq_none]
    intro x hx
    simpa using hnone x hx
  have hne : DELIM ++ id ++ DELIM ≠ [] := by
    simp [DELIM]
  have hsegs : parseSegs R (splitOnD (DELIM ++ id ++ DELIM))
      = [Node.text (DELIM ++ id ++ DELIM)] := by
    rw [splitOnD_single_marker id hfree]
    rw [show parseSegs R [[], id, []] = parseSegsGo R [] [id, []] from rfl]
    by_cases hdot : dotSpan id
    · rw [show parseSegsGo R [] [id, []]
          = if dotSpan id then
              match R.find? fun r => r.id = id with
              | some r => textNode? [] ++ [Node.tok r.id] ++ parseSegsGo R [] []
              | none =>
                  textNode? [] ++ [Node.text (DELIM ++ id ++ DELIM)] ++ parseSegsGo R [] []
            else parseSegsGo R ([] ++ DELIM ++ id) [[]] from rfl]
      rw [if_pos hdot, hfind]
      rfl
    · rw [show parseSegsGo R [] [id, []]
          = if dotSpan id then
              match R.find? fun r => r.id = id with
              | some r => textNode? [] ++ [Node.tok r.id] ++ parseSegsGo R [] []
              | none =>
                  textNode? [] ++ [Node.text (DELIM ++ id ++ DELIM)] ++ parseSegsGo R [] []
            else parseSegsGo R ([] ++ DELIM ++ id) [[]] from rfl]
      rw [if_neg hdot]
      rw [show parseSegsGo R ([] ++ DELIM ++ id) [[]]
          = textNode? ([] ++ DELIM ++ id ++ DELIM ++ []) from rfl]
      simp only [List.nil_append, List.append_nil]
      unfold textNode?
      rw [if_neg (by simpa using hne)]
  rw [show (parseContentWithResources R (DELIM ++ id ++ DELIM) st).doc
      = ensureInputArea (parseSegs R (splitOnD (DELIM ++ id ++ DELIM))) from rfl, hsegs]
  unfold ensureInputArea
  rw [if_neg (by simp [hasTags, tokIds])]

/-- Witness for C6: Example 4 of the specification,
`fromStorage("【$RES$】missing【$RES$】", [])`. -/
theorem parse_unknown_marker_witness :
    (parseContentWithResources [] (DELIM ++ ['m', 'i', 's', 's', 'i', 'n', 'g'] ++ DELIM)
        ⟨[], []⟩).doc
      = [Node.text (DELIM ++ ['m', 'i', 's', 's', 'i', 'n', 'g'] ++ DELIM)] :=
  parse_unknown_marker [] ['m', 'i', 's', 's', 'i', 'n', 'g'] ⟨[], []⟩ (by decide)
    (by intro r hr; cases hr)

/-! ## C1 — the storage round trip -/

theorem getContent_cons (n : Node) (rest : List Node) :
    getContent (n :: rest) = nodeStorage n ++ getContent rest := by
  simp [getContent]

theorem dropEmpty_text (s : Str) (rest : List Node) :
    dropEmptyTexts (Node.text s :: rest) = textNode? s ++ dropEmptyTexts rest := by
  unfold dropEmptyTexts textNode?
  rw [List.filter_cons]
  by_cases hs : s = [] <;> simp [hs]

theorem dropEmpty_tok (id : Str) (rest : List Node) :
    dropEmptyTexts (Node.tok id :: rest) = Node.tok id :: dropEmptyTexts rest := by
  unfold dropEmptyTexts
  rw [List.filter_cons]
  simp

theorem flatText_append (a b : List Node) : flatText (a ++ b) = flatText a ++ flatText b := by
  simp [flatText]

theorem flatText_dropEmpty (d : List Node) : flatText (dropEmptyTexts d) = flatText d := by
  induction d with
  | nil => rfl
  | cons n rest ih =>
      cases n with
      | text s =>
          rw [dropEmpty_text, flatText_append, flatText_text, ih]
          unfold textNode?
          split
          · next hs => rw [hs]; rfl
          · rw [flatText_text]
            simp [flatText]
      | tok id => rw [dropEmpty_tok, flatText_tok, flatText_tok, ih]
      | br =>
          rw [show dropEmptyTexts (Node.br :: rest) = Node.br :: dropEmptyTexts rest by
            unfold dropEmptyTexts; rw [List.filter_cons]; simp]
          rw [flatText_br, flatText_br, ih]

theorem tokIds_dropEmpty (d : List Node) : tokIds (dropEmptyTexts d) = tokIds d := by
  induction d with
  | nil => rfl
  | cons n rest ih =>
      cases n with
      | text s =>
          rw [dropEmpty_text, tokIds_append]
          unfold textNode?
          split
          · simpa [tokIds] using ih
          · simpa [tokIds] using ih
      | tok id => rw [dropEmpty_tok]; simpa [tokIds] using ih
      | br =>
          rw [show dropEmptyTexts (Node.br :: rest) = Node.br :: dropEmptyTexts rest by
            unfold dropEmptyTexts; rw [List.filter_cons]; simp]
          simpa [tokIds] using ih

theorem go_serial_aux (R : List Resource) (n : Nat) (d : List Node)
    (hn : d.length ≤ n) (h : SerialWF R d) (hh : headNotText d) (t : Str) (ht : dFree t) :
    ∃ segs, splitOnD (t ++ getContent d) = t :: segs
      ∧ parseSegsGo R t segs = textNode? t ++ dropEmptyTexts d := by
  induction n generalizing d t with
  | zero =>
      cases h with
      | nil =>
          refine ⟨[], ?_, ?_⟩
          · rw [show getContent [] = [] from rfl, List.append_nil]
            exact ht
          · rw [show dropEmptyTexts [] = [] from rfl, List.append_nil]
            rfl
      | text s rest hfree hhead hrest => simp at hn
      | tok id rest hne hfree hdot hfind hrest => simp at hn
  | succ n ih =>
      cases h with
      | nil =>
          refine ⟨[], ?_, ?_⟩
          · rw [show getContent [] = [] from rfl, List.append_nil]
            exact ht
          · rw [show dropEmptyTexts [] = [] from rfl, List.append_nil]
            rfl
      | text s rest hfree hhead hrest => exact hh.elim
      | tok id rest hne hfree hdot hfind hrest =>
          obtain ⟨er, her⟩ := Option.isSome_iff_exists.mp hfind
          have herid : er.id = id := by
            have hp := List.find?_some her
            simpa using hp
          have hgc : t ++ getContent (Node.tok id :: rest)
              = t ++ (DELIM ++ (id ++ (DELIM ++ getContent rest))) := by
            rw [getContent_cons, show nodeStorage (Node.tok id)
                = if id = [] then [] else DELIM ++ id ++ DELIM from rfl, if_neg hne]
            simp [List.append_assoc]
          have hshape : ∃ u v, splitOnD (getContent rest) = u :: v
              ∧ parseSegsGo R u v = dropEmptyTexts rest := by
            cases rest with
            | nil => exact ⟨[], [], rfl, rfl⟩
            | cons m rest' =>
                cases m with
                | text s' =>
                    cases hrest with
                    | text _ _ hfree' hhead' hrest' =>
                        obtain ⟨segs, h1, h2⟩ := ih rest'
                          (by simp at hn; omega) hrest' hhead' s' hfree'
                        refine ⟨s', segs, ?_, ?_⟩
                        · rw [getContent_cons]
                          exact h1
                        · rw [h2, dropEmpty_text]
                | tok id2 =>
                    obtain ⟨segs, h1, h2⟩ := ih (Node.tok id2 :: rest')
                      (by simp at hn ⊢; omega) hrest trivial [] rfl
                    rw [List.nil_append] at h1
                    refine ⟨[], segs, h1, ?_⟩
                    rw [h2]
                    rfl
                | br => cases hrest
          obtain ⟨u, v, hu1, hu2⟩ := hshape
          refine ⟨id :: u :: v, ?_, ?_⟩
          · rw [hgc, splitOnD_text t ht _, splitOnD_text id hfree _, hu1]
          · rw [show parseSegsGo R t (id :: u :: v)
                = if dotSpan id then
                    match R.find? fun r => r.id = id with
                    | some r => textNode? t ++ [Node.tok r.id] ++ parseSegsGo R u v
                    | none =>
                        textNode? t ++ [Node.text (DELIM ++ id ++ DELIM)]
                          ++ parseSegsGo R u v
                  else parseSegsGo R (t ++ DELIM ++ id) (u :: v) from rfl]
            rw [if_pos hdot, her, hu2]
            rw [show (match some er with
                | some r => textNode? t ++ [Node.tok r.id] ++ dropEmptyTexts rest
                | none => textNode? t ++ [Node.text (DELIM ++ id ++ DELIM)]
                    ++ dropEmptyTexts rest)
                = textNode? t ++ [Node.tok er.id] ++ dropEmptyTexts rest from rfl]
            rw [herid, dropEmpty_tok]
            simp

theorem parse_serial (R : List Resource) (d : List Node) (h : SerialWF R d) :
    parseSegs R (splitOnD (getContent d)) = dropEmptyTexts d := by
  cases h with
  | nil => rfl
  | text s rest hfree hhead hrest =>
      obtain ⟨segs, h1, h2⟩ := go_serial_aux R rest.length rest le_rfl hrest hhead s hfree
      rw [getContent_cons, show nodeStorage (Node.text s) = s from rfl, h1,
        show parseSegs R (s :: segs) = parseSegsGo R s segs from rfl, h2, dropEmpty_text]
  | tok id rest hne hfree hdot hfind hrest =>
      obtain ⟨segs, h1, h2⟩ := go_serial_aux R (Node.tok id :: rest).length
        (Node.tok id :: rest) le_rfl (SerialWF.tok id rest hne hfree hdot hfind hrest)
        trivial [] rfl
      rw [List.nil_append] at h1
      rw [h1, show parseSegs R ([] :: segs) = parseSegsGo R [] segs from rfl, h2]
      rfl

theorem wf_no_br (R : List Resource) (d : List Node) (h : SerialWF R d) : Node.br ∉ d := by
  induction h with
  | nil => simp
  | text s rest _ _ _ ih => simp [ih]
  | tok id rest _ _ _ _ _ ih => simp [ih]

theorem flatText_brs (l : List Node) (h : ∀ n ∈ l, n = Node.br) : flatText l = [] := by
  induction l with
  | nil => rfl
  | cons n rest ih =>
      rw [h n (by simp), flatText_br]
      exact ih fun m hm => h m (by simp [hm])

theorem stripEndRev_brs (l : List Node)
    (hl : ∀ s, l.head? = some (Node.text s) → ¬ whiteOnly s) :
    ∃ junk, l = junk ++ stripEndRev l ∧ ∀ n ∈ junk, n = Node.br := by
  induction l using stripEndRev.induct with
  | case1 s rest hws =>
      exact absurd hws (hl s rfl)
  | case2 s rest hws =>
      refine ⟨[], ?_, by simp⟩
      rw [show stripEndRev (Node.text s :: rest) = Node.text s :: rest by
        unfold stripEndRev; rw [if_neg hws]]
      rfl
  | case3 rest ih =>
      obtain ⟨junk, hj, hall⟩ := ih (by intro s hs; cases hs)
      refine ⟨Node.br :: junk, ?_, ?_⟩
      · rw [show stripEndRev (Node.br :: Node.br :: rest)
            = stripEndRev (Node.br :: rest) from rfl]
        conv_lhs => rw [show (Node.br :: Node.br :: rest : List Node)
            = Node.br :: (Node.br :: rest) from rfl, hj]
        simp
      · intro n hn
        rcases List.mem_cons.mp hn with h | h
        · exact h
        · exact hall n h
  | case4 l h1 h2 =>
      refine ⟨[], ?_, by simp⟩
      have hs : stripEndRev l = l := by
        rw [stripEndRev.eq_def]
        split
        · next s rest => exact (h1 s rest rfl).elim
        · next rest => exact (h2 rest rfl).elim
        · rfl
      rw [hs, List.nil_append]

theorem flatText_ensure (p : List Node) (hlast : noTrailWhite p) :
    flatText (ensureInputArea p) = flatText p := by
  unfold ensureInputArea
  split
  · next htags =>
      have hl : ∀ s, p.reverse.head? = some (Node.text s) → ¬ whiteOnly s := by
        intro s hs
        rw [List.head?_reverse] at hs
        unfold noTrailWhite at hlast
        rw [hs] at hlast
        exact hlast
      obtain ⟨junk, hj, hbrs⟩ := stripEndRev_brs p.reverse hl
      have hp : p = (stripEndRev p.reverse).reverse ++ junk.reverse := by
        rw [← List.reverse_append, ← hj, List.reverse_reverse]
      have hflat : flatText ((stripEndRev p.reverse).reverse) = flatText p := by
        conv_rhs => rw [hp]
        rw [flatText_append, flatText_brs junk.reverse
          (fun n hn => hbrs n (List.mem_reverse.mp hn)), List.append_nil]
      split
      · rw [flatText_append, hflat, flatText_br]
        simp [flatText]
      · rw [flatText_append, hflat, flatText_br]
        simp [flatText]
      · exact hflat
  · rfl

theorem noTrail_dropEmpty (d : List Node) (h : noTrailWhite d) :
    noTrailWhite (dropEmptyTexts d) := by
  induction d using List.reverseRecOn with
  | nil => trivial
  | append_singleton as a ih =>
      unfold noTrailWhite at h
      rw [List.getLast?_concat] at h
      cases a with
      | text s =>
          by_cases hs : s = []
          · subst hs
            exact absurd (by intro c hc; cases hc) h
          · rw [show dropEmptyTexts (as ++ [Node.text s])
                = dropEmptyTexts as ++ [Node.text s] by
              unfold dropEmptyTexts
              rw [List.filter_append]
              simp [hs]]
            unfold noTrailWhite
            rw [List.getLast?_concat]
            exact h
      | tok id =>
          rw [show dropEmptyTexts (as ++ [Node.tok id])
              = dropEmptyTexts as ++ [Node.tok id] by
            unfold dropEmptyTexts
            rw [List.filter_append]
            simp]
          unfold noTrailWhite
          rw [List.getLast?_concat]
          trivial
      | br =>
          rw [show dropEmptyTexts (as ++ [Node.br])
              = dropEmptyTexts as ++ [Node.br] by
            unfold dropEmptyTexts
            rw [List.filter_append]
            simp]
          unfold noTrailWhite
          rw [List.getLast?_concat]
          trivial

/-- C1 (counterexample): the round trip fails as universally stated, on
two counts.  First, a document whose text run contains the literal
delimiter — `[text "【$RES$】", token r1]` with `r1` present in `R` —
serializes to a string the regex mis-pairs, so parsing back yields no
token at all.  Second, a document ending in a whitespace-only run after a
token — `[token r1, text " "]` — loses that run to the `ensureInputArea`
pass that follows the parse, so the text content differs. -/
theorem round_trip_fails :
    tokIds (parseContentWithResources [⟨['r', '1'], RType.file, none⟩]
        (getContent [Node.text DELIM, Node.tok ['r', '1']]) ⟨[], []⟩).doc
      ≠ tokIds [Node.text DELIM, Node.tok ['r', '1']]
    ∧ flatText (parseContentWithResources [⟨['r', '1'], RType.file, none⟩]
        (getContent [Node.tok ['r', '1'], Node.text [' ']]) ⟨[], []⟩).doc
      ≠ flatText [Node.tok ['r', '1'], Node.text [' ']] := by
  constructor
  · decide
  · decide

/-- C1 (amended): serializing with `getContent` and parsing back with
`setContent`/`parseContentWithResources` (the resource list holding every
token id) reconstructs a document with identical text content and
identical token id sequence, provided the document is storage-safe: no
`br` nodes, text runs delimiter-free and never adjacent, token ids
non-empty (an empty id fails the `if (resourceId)` serialization guard
and the token would vanish), delimiter-free and free of line
terminators, and no trailing
whitespace-only text run (which the `ensureInputArea` pass after the
parse would strip). -/
theorem round_trip_preserved (R : List Resource) (d : List Node) (st : St)
    (h : SerialWF R d) (htail : noTrailWhite d) :
    flatText (parseContentWithResources R (getContent d) st).doc = flatText d
    ∧ tokIds (parseContentWithResources R (getContent d) st).doc = tokIds d := by
  have hps := parse_serial R d h
  have hnt : noTrailWhite (dropEmptyTexts d) := noTrail_dropEmpty d htail
  constructor
  · rw [show (parseContentWithResources R (getContent d) st).doc
        = ensureInputArea (parseSegs R (splitOnD (getContent d))) from rfl, hps,
      flatText_ensure _ hnt, flatText_dropEmpty]
  · rw [show (parseContentWithResources R (getContent d) st).doc
        = ensureInputArea (parseSegs R (splitOnD (getContent d))) from rfl, hps,
      tokIds_ensure, tokIds_dropEmpty]

/-- Witness for the amended C1: Example 1 of the specification,
`"hello " + token(r1) + " world"` with `r1` a file resource. -/
theorem round_trip_preserved_witness :
    flatText (parseContentWithResources [⟨['r', '1'], RType.file, none⟩]
        (getContent [Node.text ['h', 'i', ' '], Node.tok ['r', '1'],
          Node.text [' ', 'w']]) ⟨[], []⟩).doc
      = flatText [Node.text ['h', 'i', ' '], Node.tok ['r', '1'], Node.text [' ', 'w']]
    ∧ tokIds (parseContentWithResources [⟨['r', '1'], RType.file, none⟩]
        (getContent [Node.text ['h', 'i', ' '], Node.tok ['r', '1'],
          Node.text [' ', 'w']]) ⟨[], []⟩).doc
      = tokIds [Node.text ['h', 'i', ' '], Node.tok ['r', '1'], Node.text [' ', 'w']] :=
  round_trip_preserved [⟨['r', '1'], RType.file, none⟩]
    [Node.text ['h', 'i', ' '], Node.tok ['r', '1'], Node.text [' ', 'w']] ⟨[], []⟩
    (by
      refine SerialWF.text _ _ (by decide) trivial ?_
      refine SerialWF.tok _ _ (by decide) (by decide) (by decide) (by decide) ?_
      exact SerialWF.text _ _ (by decide) trivial SerialWF.nil)
    (by decide)

/-! ## C2 — reconciliation completeness -/

theorem rids_cons (r : Resource) (L : List Resource) (id : Str) :
    id ∈ rids (r :: L) ↔ id = r.id ∨ id ∈ rids L := by
  simp [rids, eq_comm]

theorem mem_rids_iff_find (R : List Resource) (id : Str) :
    id ∈ rids R ↔ (R.find? fun r => r.id = id).isSome := by
  rw [List.find?_isSome]
  unfold rids
  rw [List.mem_map]
  constructor
  · rintro ⟨r, hr, rfl⟩
    exact ⟨r, hr, by simp⟩
  · rintro ⟨r, hr, hp⟩
    exact ⟨r, hr, by simpa using hp.symm⟩

theorem normalizePath_ne_nil (p : Str) (h : p ≠ []) : normalizePath p ≠ [] := by
  unfold normalizePath
  rw [if_neg h]
  simp [h]

theorem codePathRel_symm : Symmetric (fun r1 r2 : Resource =>
    ¬ (r1.rtype = RType.code ∧ r1.filePath.getD [] ≠ [] ∧
       r2.rtype = RType.code ∧ r2.filePath.getD [] ≠ [] ∧
       normalizePath (r1.filePath.getD []) = normalizePath (r2.filePath.getD []))) := by
  intro x y hxy hc
  exact hxy ⟨hc.2.2.1, hc.2.2.2.1, hc.1, hc.2.1, hc.2.2.2.2.symm⟩

theorem mergeStep_of_missing (R : List Resource) (a : MSt) (r : Resource)
    (hdp : distinctCodePaths R) (hrR : r ∈ R)
    (h1 : r.id ∉ a.rmap)
    (hcov : ∀ id, id ∈ tokIds a.doc → id ∈ a.rmap) :
    mergeStep R a r = mergeIns a r := by
  have hrtok : r.id ∉ tokIds a.doc := fun hm => h1 (hcov _ hm)
  unfold mergeStep
  rw [if_neg h1]
  by_cases h2 : r.rtype = RType.code ∧ r.filePath.getD [] ≠ []
  · rw [if_pos h2]
    cases hft : findTagByFilePath R r a.doc with
    | none => rfl
    | some p =>
        exfalso
        have hfa : findTagAux R r a.doc 0 = some (p.1, p.2) := by
          unfold findTagByFilePath at hft
          rw [if_pos h2] at hft
          exact hft
        obtain ⟨pre, post, hd, _, hm⟩ := findTagAux_some R r a.doc 0 p.1 p.2 hfa
        have hp2 : p.2 ∈ tokIds a.doc := by
          rw [hd, tokIds_append]
          simp [tokIds]
        unfold tagMatches at hm
        cases hfind : R.find? fun er => er.id = p.2 with
        | none => rw [hfind] at hm; cases hm
        | some er =>
            rw [hfind] at hm
            simp only [Bool.and_eq_true, decide_eq_true_eq] at hm
            obtain ⟨hercode, hpath⟩ := hm
            have herR : er ∈ R := List.mem_of_find?_eq_some hfind
            have herid : er.id = p.2 := by
              have hp := List.find?_some hfind
              simpa using hp
            have hner : er ≠ r := by
              intro heq
              apply hrtok
              rw [show r.id = p.2 by rw [← herid, heq]]
              exact hp2
            have herpath : er.filePath.getD [] ≠ [] := by
              intro hnil
              rw [hnil] at hpath
              exact normalizePath_ne_nil _ h2.2 (by
                rw [← hpath]
                rfl)
            exact List.Pairwise.forall codePathRel_symm hdp herR hrR hner
              ⟨hercode, herpath, h2.1, h2.2, hpath⟩
  · rw [if_neg h2]

theorem foldl_mergeStep_complete (R : List Resource)
    (hdp : distinctCodePaths R) :
    ∀ (L : List Resource) (a : MSt),
    (∀ r ∈ L, r ∈ R) →
    (∀ id, id ∈ a.rmap ↔ id ∈ tokIds a.doc) →
    (tokIds a.doc).Nodup →
    (∀ id, id ∈ tokIds a.doc → id ∈ rids R) →
    (∀ id, id ∈ tokIds (L.foldl (mergeStep R) a).doc
        ↔ id ∈ tokIds a.doc ∨ id ∈ rids L)
    ∧ (∀ id, id ∈ (L.foldl (mergeStep R) a).rmap
        ↔ id ∈ tokIds (L.foldl (mergeStep R) a).doc)
    ∧ (tokIds (L.foldl (mergeStep R) a).doc).Nodup
    ∧ (∀ id, id ∈ tokIds (L.foldl (mergeStep R) a).doc → id ∈ rids R) := by
  intro L
  induction L with
  | nil =>
      intro a _ hkeys hnd hsub
      exact ⟨fun id => by simp [rids], hkeys, hnd, hsub⟩
  | cons r L ih =>
      intro a hLR hkeys hnd hsub
      by_cases h1 : r.id ∈ a.rmap
      · have hstep : mergeStep R a r = a := by
          unfold mergeStep
          rw [if_pos h1]
        have hrtok : r.id ∈ tokIds a.doc := (hkeys r.id).mp h1
        rw [List.foldl_cons, hstep]
        obtain ⟨f1, f2, f3, f4⟩ := ih a (fun x hx => hLR x (by simp [hx])) hkeys hnd hsub
        refine ⟨fun id => ?_, f2, f3, f4⟩
        rw [f1 id, rids_cons]
        constructor
        · rintro (h | h)
          · exact Or.inl h
          · exact Or.inr (Or.inr h)
        · rintro (h | h | h)
          · exact Or.inl h
          · exact Or.inl (h ▸ hrtok)
          · exact Or.inr h
      · have hrtok : r.id ∉ tokIds a.doc := fun hm => h1 ((hkeys _).mpr hm)
        have hstep := mergeStep_of_missing R a r hdp (hLR r (by simp)) h1
          (fun id h => (hkeys id).mpr h)
        have hkeys' : ∀ id, id ∈ (mergeIns a r).rmap ↔ id ∈ tokIds (mergeIns a r).doc := by
          intro id
          rw [show (mergeIns a r).rmap = addKey a.rmap r.id from rfl,
            show (mergeIns a r).doc = (insTagAt a.doc a.sel r.id).1 from rfl,
            mem_addKey, mem_tokIds_insTagAt, hkeys]
        have hnd' : (tokIds (mergeIns a r).doc).Nodup :=
          nodup_tokIds_insTagAt _ _ _ hrtok hnd
        have hsub' : ∀ id, id ∈ tokIds (mergeIns a r).doc → id ∈ rids R := by
          intro id hid
          rcases (mem_tokIds_insTagAt a.doc a.sel r.id id).mp hid with h | h
          · rw [rids, List.mem_map]
            exact ⟨r, hLR r (by simp), h.symm⟩
          · exact hsub id h
        rw [List.foldl_cons, hstep]
        obtain ⟨f1, f2, f3, f4⟩ := ih (mergeIns a r)
          (fun x hx => hLR x (by simp [hx])) hkeys' hnd' hsub'
        refine ⟨fun id => ?_, f2, f3, f4⟩
        rw [f1 id, rids_cons,
          show (mergeIns a r).doc = (insTagAt a.doc a.sel r.id).1 from rfl,
          mem_tokIds_insTagAt]
        constructor
        · rintro ((h | h) | h)
          · exact Or.inr (Or.inl h)
          · exact Or.inl h
          · exact Or.inr (Or.inr h)
        · rintro (h | h | h)
          · exact Or.inl (Or.inr h)
          · exact Or.inl (Or.inl h)
          · exact Or.inr h

theorem prune_keys_iff (R : List Resource) (st : St) (hst : consistentSt st) :
    ∀ id, id ∈ pruneMap R st ↔ id ∈ tokIds (pruneDoc R st.doc) := by
  intro id
  rw [tokIds_prune, List.mem_filter]
  unfold pruneMap
  rw [List.mem_filter]
  constructor
  · rintro ⟨hm, hcond⟩
    have hattached : id ∈ tokIds st.doc := (hst.1 id).mp hm
    refine ⟨hattached, ?_⟩
    simp only [decide_eq_true_eq, not_and] at hcond
    by_cases hf : (R.find? fun r => r.id = id) = none
    · exact absurd ((mem_tokIds _ _).mp hattached) (hcond hf)
    · rw [Option.isSome_iff_ne_none]
      exact hf
  · rintro ⟨hattached, hsome⟩
    refine ⟨(hst.1 id).mpr hattached, ?_⟩
    simp only [decide_eq_true_eq, not_and]
    intro hnone
    rw [hnone] at hsome
    cases hsome

theorem prune_sub_rids (R : List Resource) (st : St) :
    ∀ id, id ∈ tokIds (pruneDoc R st.doc) → id ∈ rids R := by
  intro id hid
  rw [tokIds_prune, List.mem_filter] at hid
  exact (mem_rids_iff_find R id).mpr (by simpa using hid.2)

/-- C2 (counterexample): the new list holds two code resources `a` and
`b` with the same (normalized) file path; the document already holds
`token(a)`.  Processing `b` path-matches the existing tag (its id `a` is
in the new list) and re-keys it to `b`, so after `updateResources` the id
`a` — although present in the list — has no token: the claimed set
equality fails. -/
theorem reconcile_not_complete :
    tokIds (updateResources
        [⟨['a'], RType.code, some ['p']⟩, ⟨['b'], RType.code, some ['p']⟩] none
        ⟨[Node.tok ['a']], [['a']]⟩).1.doc = [['b']]
    ∧ ['a'] ∈ rids [⟨['a'], RType.code, some ['p']⟩, ⟨['b'], RType.code, some ['p']⟩]
    ∧ ['a'] ∉ tokIds (updateResources
        [⟨['a'], RType.code, some ['p']⟩, ⟨['b'], RType.code, some ['p']⟩] none
        ⟨[Node.tok ['a']], [['a']]⟩).1.doc := by
  refine ⟨by decide, by decide, by decide⟩

/-- C2 (amended): after `updateResources(R)` the set of token ids equals
the set of ids of `R`, with no duplicate token — provided the state is one
the component reaches (map keys = attached ids, attached ids unique) and
no two entries of `R` are code resources with path-normalized-equal
non-empty file paths (the §9 heuristic situation of the counterexample). -/
theorem reconcile_completeness (R : List Resource) (sel : Option Sel) (st : St)
    (hst : consistentSt st) (hdp : distinctCodePaths R) :
    (∀ id, id ∈ tokIds (updateResources R sel st).1.doc ↔ id ∈ rids R)
    ∧ (tokIds (updateResources R sel st).1.doc).Nodup := by
  obtain ⟨f1, f2, f3, f4⟩ := foldl_mergeStep_complete R hdp R
    ⟨pruneDoc R st.doc, pruneMap R st, sel, []⟩ (fun r hr => hr)
    (prune_keys_iff R st hst) (prune_nodup R st hst.2) (prune_sub_rids R st)
  have hdoc : (updateResources R sel st).1.doc
      = updSettle ((R.foldl (mergeStep R)
          ⟨pruneDoc R st.doc, pruneMap R st, sel, []⟩).doc) := rfl
  constructor
  · intro id
    rw [hdoc, tokIds_updSettle]
    split
    · next hclear =>
        simp only [List.not_mem_nil, false_iff]
        intro hidR
        have hmem : id ∈ tokIds (R.foldl (mergeStep R)
            ⟨pruneDoc R st.doc, pruneMap R st, sel, []⟩).doc :=
          (f1 id).mpr (Or.inr hidR)
        refine hclear.1 ?_
        intro hnil
        rw [hnil] at hmem
        cases hmem
    · rw [f1 id]
      constructor
      · rintro (h | h)
        · exact prune_sub_rids R st id h
        · exact h
      · exact Or.inr
  · rw [hdoc, tokIds_updSettle]
    split
    · exact List.nodup_nil
    · exact f3

/-- Witness for the amended C2 at a concrete state and list. -/
theorem reconcile_completeness_witness :
    ['c'] ∈ tokIds (updateResources
        [⟨['a'], RType.code, some ['p']⟩, ⟨['c'], RType.file, none⟩] none
        ⟨[Node.tok ['a'], Node.text ['x']], [['a']]⟩).1.doc :=
  ((reconcile_completeness
      [⟨['a'], RType.code, some ['p']⟩, ⟨['c'], RType.file, none⟩] none
      ⟨[Node.tok ['a'], Node.text ['x']], [['a']]⟩
      ⟨fun id => by
        rw [show tokIds (⟨[Node.tok ['a'], Node.text ['x']], [['a']]⟩ : St).doc
            = [['a']] from rfl], by decide⟩
      (by decide)).1 ['c']).mpr (by decide)

theorem whiteOnly_flatText_cleanup (d : List Node) :
    whiteOnly (flatText (cleanupEmptyNodes d)) ↔ whiteOnly (flatText d) := by
  induction d with
  | nil => simp [cleanupEmptyNodes]
  | cons n rest ih =>
    cases n with
    | text s =>
        by_cases hw : whiteOnly s
        · have h1 : cleanupEmptyNodes (Node.text s :: rest) = cleanupEmptyNodes rest := by
            unfold cleanupEmptyNodes
            simp [List.filter_cons, hw]
          rw [h1, flatText_text, whiteOnly_append, ih]
          simp [hw]
        · have h1 : cleanupEmptyNodes (Node.text s :: rest)
              = Node.text s :: cleanupEmptyNodes rest := by
            unfold cleanupEmptyNodes
            simp [List.filter_cons, hw]
          rw [h1, flatText_text, flatText_text, whiteOnly_append, whiteOnly_append, ih]
    | tok id =>
        have h1 : cleanupEmptyNodes (Node.tok id :: rest)
            = Node.tok id :: cleanupEmptyNodes rest := by
          unfold cleanupEmptyNodes
          simp [List.filter_cons]
        rw [h1, flatText_tok, flatText_tok, ih]
    | br =>
        have h1 : cleanupEmptyNodes (Node.br :: rest) = cleanupEmptyNodes rest := by
          unfold cleanupEmptyNodes
          simp [List.filter_cons]
        rw [h1, flatText_br, ih]

theorem cleanupMem (d : List Node) :
    ∀ n ∈ cleanupEmptyNodes d, n ≠ Node.br ∧ ∀ s, n = Node.text s → ¬ whiteOnly s := by
  intro n hn
  unfold cleanupEmptyNodes at hn
  have hp := List.of_mem_filter hn
  constructor
  · rintro rfl
    simp at hp
  · rintro s rfl
    simpa using hp

theorem stripEndRev_eq_self (l : List Node)
    (h : ∀ n ∈ l, n ≠ Node.br ∧ ∀ s, n = Node.text s → ¬ whiteOnly s) :
    stripEndRev l = l := by
  cases l with
  | nil => rfl
  | cons n rest =>
    cases n with
    | text s =>
        have hs := (h _ (by simp)).2 s rfl
        simp [stripEndRev, hs]
    | tok id => rfl
    | br => exact absurd rfl (h _ (by simp)).1

theorem ensureInputArea_clean (c : List Node)
    (hc : ∀ n ∈ c, n ≠ Node.br ∧ ∀ s, n = Node.text s → ¬ whiteOnly s) :
    ensureInputArea c = if hasTags c then
      (match c.getLast? with
       | some (Node.tok _) => c ++ [Node.br]
       | none => c ++ [Node.br]
       | _ => c) else c := by
  unfold ensureInputArea
  have hs : stripEndRev c.reverse = c.reverse :=
    stripEndRev_eq_self c.reverse fun n hn => hc n (List.mem_reverse.mp hn)
  rw [hs, List.reverse_reverse]

theorem hasTags_cleanup (d : List Node) : hasTags (cleanupEmptyNodes d) ↔ hasTags d := by
  unfold hasTags
  rw [tokIds_cleanup]

theorem clearCond_cleanup (d : List Node) :
    clearCond (cleanupEmptyNodes d) ↔ clearCond d := by
  unfold clearCond
  rw [hasTags_cleanup, whiteOnly_flatText_cleanup]

theorem updSettle_idem (d : List Node) : updSettle (updSettle d) = updSettle d := by
  by_cases h : clearCond d
  · rw [show updSettle d = [] by rw [updSettle, if_pos h]]
    decide
  · rw [show updSettle d = ensureInputArea (cleanupEmptyNodes d) by
      rw [updSettle, if_neg h]]
    have hcmem := cleanupMem d
    have hform := ensureInputArea_clean (cleanupEmptyNodes d) hcmem
    by_cases ht : hasTags (cleanupEmptyNodes d)
    · rw [if_pos ht] at hform
      have hne : cleanupEmptyNodes d ≠ [] := by
        intro hnil
        rw [hnil] at ht
        exact ht rfl
      cases hg : (cleanupEmptyNodes d).getLast? with
      | none => exact absurd (List.getLast?_eq_none_iff.mp hg) hne
      | some n =>
        have hnmem := hcmem n (List.mem_of_getLast?_eq_some hg)
        cases n with
        | br => exact absurd rfl hnmem.1
        | text s =>
            rw [hg] at hform
            rw [hform]
            have hcc : ¬ clearCond (cleanupEmptyNodes d) := by
              intro hcl
              exact hcl.1 ht
            rw [updSettle, if_neg hcc, cleanup_idem, hform]
        | tok x =>
            rw [hg] at hform
            rw [hform]
            have he : cleanupEmptyNodes (cleanupEmptyNodes d ++ [Node.br])
                = cleanupEmptyNodes d := by
              unfold cleanupEmptyNodes
              rw [List.filter_append]
              have h2 : cleanupEmptyNodes (cleanupEmptyNodes d) = cleanupEmptyNodes d :=
                cleanup_idem d
              unfold cleanupEmptyNodes at h2
              rw [h2]
              simp
            have hcc : ¬ clearCond (cleanupEmptyNodes d ++ [Node.br]) := by
              intro hcl
              refine hcl.1 ?_
              unfold hasTags at ht ⊢
              rw [tokIds_append]
              simp only [tokIds]
              simpa using ht
            rw [updSettle, if_neg hcc, he, hform]
    · have hcc : ¬ clearCond (cleanupEmptyNodes d) := by
        intro hcl
        exact h ((clearCond_cleanup d).mp hcl)
      rw [if_neg ht] at hform
      rw [hform, updSettle, if_neg hcc, cleanup_idem, hform]

theorem mem_rids_of_mem (R : List Resource) (r : Resource) (h : r ∈ R) :
    r.id ∈ rids R := by
  unfold rids
  exact List.mem_map_of_mem Resource.id h

theorem pruneDoc_eq_self (R : List Resource) (d : List Node)
    (h : ∀ id ∈ tokIds d, id ∈ rids R) : pruneDoc R d = d := by
  unfold pruneDoc
  apply List.filter_eq_self.mpr
  intro n hn
  cases n with
  | text s => rfl
  | br => rfl
  | tok id =>
      have hid : id ∈ rids R := h id ((mem_tokIds d id).mpr hn)
      simpa using (mem_rids_iff_find R id).mp hid

theorem pruneMap_eq_self (R : List Resource) (st : St)
    (h : ∀ id ∈ tokIds st.doc, id ∈ rids R) : pruneMap R st = st.rmap := by
  unfold pruneMap
  apply List.filter_eq_self.mpr
  intro k hk
  simp only [decide_eq_true_eq]
  rintro ⟨hnone, hmem⟩
  have hfind := (mem_rids_iff_find R k).mp (h k ((mem_tokIds st.doc k).mpr hmem))
  rw [hnone] at hfind
  simp at hfind

theorem foldl_mergeStep_keep (R : List Resource) :
    ∀ (L : List Resource) (a : MSt), (∀ r ∈ L, r.id ∈ a.rmap) →
    L.foldl (mergeStep R) a = a := by
  intro L
  induction L with
  | nil => intro a _; rfl
  | cons r L ih =>
      intro a h
      have hstep : mergeStep R a r = a := by
        unfold mergeStep
        rw [if_pos (h r (by simp))]
      rw [List.foldl_cons, hstep]
      exact ih a fun r' hr' => h r' (by simp [hr'])

theorem foldl_mergeStep_covers (R : List Resource) (hdp : distinctCodePaths R) :
    ∀ (L : List Resource) (a : MSt),
    (∀ r ∈ L, r ∈ R) →
    (∀ id, id ∈ tokIds a.doc → id ∈ a.rmap) →
    (tokIds a.doc).Nodup →
    (∀ id, id ∈ tokIds a.doc → id ∈ rids R) →
    (∀ id, id ∈ a.rmap → id ∈ (L.foldl (mergeStep R) a).rmap)
    ∧ (∀ r ∈ L, r.id ∈ (L.foldl (mergeStep R) a).rmap)
    ∧ (∀ id, id ∈ tokIds (L.foldl (mergeStep R) a).doc → id ∈ rids R) := by
  intro L
  induction L with
  | nil =>
      intro a _ _ _ hsub
      exact ⟨fun id h => h, by simp, hsub⟩
  | cons r L ih =>
      intro a hLR hcov hnd hsub
      by_cases h1 : r.id ∈ a.rmap
      · have hstep : mergeStep R a r = a := by
          unfold mergeStep
          rw [if_pos h1]
        rw [List.foldl_cons, hstep]
        obtain ⟨m1, m2, m3⟩ := ih a (fun r' hr' => hLR r' (by simp [hr'])) hcov hnd hsub
        exact ⟨m1, fun r' hr' => by
          rcases List.mem_cons.mp hr' with rfl | hr'
          · exact m1 _ h1
          · exact m2 r' hr', m3⟩
      · have hstep : mergeStep R a r = mergeIns a r :=
          mergeStep_of_missing R a r hdp (hLR r (by simp)) h1 hcov
        have hrid : r.id ∉ tokIds a.doc := fun hm => h1 (hcov _ hm)
        obtain ⟨hcov', hnd'⟩ := mergeIns_preserves a r hcov hnd hrid
        have hsub' : ∀ id, id ∈ tokIds (mergeIns a r).doc → id ∈ rids R := by
          intro id hid
          rw [show (mergeIns a r).doc = (insTagAt a.doc a.sel r.id).1 from rfl] at hid
          rcases (mem_tokIds_insTagAt a.doc a.sel r.id id).mp hid with rfl | hid
          · exact mem_rids_of_mem R r (hLR r (by simp))
          · exact hsub id hid
        have hmono : ∀ id, id ∈ a.rmap → id ∈ (mergeIns a r).rmap := by
          intro id hid
          rw [show (mergeIns a r).rmap = addKey a.rmap r.id from rfl, mem_addKey]
          exact Or.inr hid
        have hrkey : r.id ∈ (mergeIns a r).rmap := by
          rw [show (mergeIns a r).rmap = addKey a.rmap r.id from rfl, mem_addKey]
          exact Or.inl rfl
        rw [List.foldl_cons, hstep]
        obtain ⟨m1, m2, m3⟩ := ih (mergeIns a r)
          (fun r' hr' => hLR r' (by simp [hr'])) hcov' hnd' hsub'
        refine ⟨fun id hid => m1 id (hmono id hid), fun r' hr' => ?_, m3⟩
        rcases List.mem_cons.mp hr' with rfl | hr'
        · exact m1 _ hrkey
        · exact m2 r' hr'


/-! ## C7 machinery — path classes and first matches -/

theorem find_id_of_nodup (R : List Resource) (hnd : (rids R).Nodup) (f : Resource)
    (hf : f ∈ R) : (R.find? fun er => er.id = f.id) = some f := by
  induction R with
  | nil => cases hf
  | cons r R ih =>
      rw [show rids (r :: R) = r.id :: rids R from rfl] at hnd
      obtain ⟨hh, ht⟩ := List.nodup_cons.mp hnd
      rcases List.mem_cons.mp hf with rfl | hf2
      · rw [List.find?_cons_of_pos _ (by simp)]
      · have hne : r.id ≠ f.id := by
          intro he
          refine hh ?_
          rw [he]
          exact mem_rids_of_mem R f hf2
        rw [List.find?_cons_of_neg _ (by simpa using hne)]
        exact ih ht hf2

theorem classOf_find (R : List Resource) (y : Str) (er : Resource)
    (h : (R.find? fun e => e.id = y) = some er) :
    classOf R y = if er.rtype = RType.code then some (pathOf er) else none := by
  unfold classOf
  rw [h]

theorem pathOf_ne_nil (r : Resource) (h : isCP r) : pathOf r ≠ [] :=
  normalizePath_ne_nil _ h.2

theorem classOf_of_isCP (R : List Resource) (hnd : (rids R).Nodup) (f : Resource)
    (hf : f ∈ R) (hcp : isCP f) : classOf R f.id = some (pathOf f) := by
  rw [classOf_find R f.id f (find_id_of_nodup R hnd f hf), if_pos hcp.1]

theorem classOf_inv (R : List Resource) (hnd : (rids R).Nodup) (e f : Resource)
    (hf : f ∈ R) (hcpe : isCP e) (h : classOf R f.id = some (pathOf e)) :
    isCP f ∧ pathOf f = pathOf e := by
  rw [classOf_find R f.id f (find_id_of_nodup R hnd f hf)] at h
  by_cases hc : f.rtype = RType.code
  · rw [if_pos hc] at h
    have hp : pathOf f = pathOf e := Option.some_inj.mp h
    refine ⟨⟨hc, ?_⟩, hp⟩
    intro hnil
    refine pathOf_ne_nil e hcpe ?_
    rw [← hp]
    unfold pathOf
    rw [hnil]
    rfl
  · rw [if_neg hc] at h
    cases h

theorem classOf_not_isCP (R : List Resource) (hnd : (rids R).Nodup) (e f : Resource)
    (hf : f ∈ R) (hcpe : isCP e) (hncp : ¬ isCP f) :
    classOf R f.id ≠ some (pathOf e) := by
  intro h
  exact hncp (classOf_inv R hnd e f hf hcpe h).1

theorem tagMatches_iff (R : List Resource) (r : Resource) (y : Str) :
    tagMatches R r y = true ↔ classOf R y = some (pathOf r) := by
  unfold tagMatches classOf
  cases hfy : R.find? fun er => er.id = y with
  | none => simp
  | some er =>
      rw [show (match some er with
          | some er =>
            decide (er.rtype = RType.code) &&
              decide (normalizePath (er.filePath.getD []) = normalizePath (r.filePath.getD []))
          | none => false)
        = (decide (er.rtype = RType.code) &&
            decide (normalizePath (er.filePath.getD []) = normalizePath (r.filePath.getD [])))
        from rfl,
        show (match some er with
          | some er => if er.rtype = RType.code then some (pathOf er) else none
          | none => none) = if er.rtype = RType.code then some (pathOf er) else none from rfl]
      by_cases hc : er.rtype = RType.code
      · rw [if_pos hc]
        simp [hc, pathOf]
      · rw [if_neg hc]
        simp [hc]

theorem tagMatches_false_iff (R : List Resource) (r : Resource) (y : Str) :
    tagMatches R r y = false ↔ classOf R y ≠ some (pathOf r) := by
  constructor
  · intro h hc
    have h2 := (tagMatches_iff R r y).mpr hc
    rw [h] at h2
    cases h2
  · intro h
    cases ht : tagMatches R r y
    · rfl
    · exact absurd ((tagMatches_iff R r y).mp ht) h

theorem findTagAux_some_min (R : List Resource) (r : Resource) :
    ∀ (d : List Node) (i j : Nat) (y : Str), findTagAux R r d i = some (j, y) →
    ∃ pre post, d = pre ++ Node.tok y :: post ∧ j = i + pre.length
      ∧ tagMatches R r y = true
      ∧ ∀ z ∈ tokIds pre, tagMatches R r z = false := by
  intro d
  induction d with
  | nil => intro i j y h; cases h
  | cons n rest ih =>
      intro i j y h
      cases n with
      | text s =>
          obtain ⟨pre, post, hd, hj, hm, hmin⟩ := ih (i + 1) j y h
          exact ⟨Node.text s :: pre, post, by rw [hd]; rfl, by simp [hj]; omega, hm,
            by simpa [tokIds] using hmin⟩
      | br =>
          obtain ⟨pre, post, hd, hj, hm, hmin⟩ := ih (i + 1) j y h
          exact ⟨Node.br :: pre, post, by rw [hd]; rfl, by simp [hj]; omega, hm,
            by simpa [tokIds] using hmin⟩
      | tok z =>
          by_cases hz : tagMatches R r z
          · rw [show findTagAux R r (Node.tok z :: rest) i = some (i, z) by
              simp [findTagAux, hz]] at h
            obtain ⟨hj, hy⟩ : i = j ∧ z = y := by
              constructor <;> [exact congrArg Prod.fst (Option.some_inj.mp h);
                exact congrArg Prod.snd (Option.some_inj.mp h)]
            subst hj
            subst hy
            exact ⟨[], rest, rfl, by simp, hz, by simp [tokIds]⟩
          · rw [show findTagAux R r (Node.tok z :: rest) i
                = findTagAux R r rest (i + 1) by simp [findTagAux, hz]] at h
            obtain ⟨pre, post, hd, hj, hm, hmin⟩ := ih (i + 1) j y h
            refine ⟨Node.tok z :: pre, post, by rw [hd]; rfl, by simp [hj]; omega, hm, ?_⟩
            intro w hw
            rw [show tokIds (Node.tok z :: pre) = z :: tokIds pre from rfl] at hw
            rcases List.mem_cons.mp hw with rfl | hw2
            · simpa using hz
            · exact hmin w hw2

theorem findTagAux_none (R : List Resource) (r : Resource) :
    ∀ (d : List Node) (i : Nat), findTagAux R r d i = none →
    ∀ z ∈ tokIds d, tagMatches R r z = false := by
  intro d
  induction d with
  | nil => intro i _ z hz; cases hz
  | cons n rest ih =>
      intro i h z hz
      cases n with
      | text s => exact ih (i + 1) h z (by simpa [tokIds] using hz)
      | br => exact ih (i + 1) h z (by simpa [tokIds] using hz)
      | tok w =>
          by_cases hw : tagMatches R r w
          · rw [show findTagAux R r (Node.tok w :: rest) i = some (i, w) by
              simp [findTagAux, hw]] at h
            cases h
          · rw [show findTagAux R r (Node.tok w :: rest) i
                = findTagAux R r rest (i + 1) by simp [findTagAux, hw]] at h
            rw [show tokIds (Node.tok w :: rest) = w :: tokIds rest from rfl] at hz
            rcases List.mem_cons.mp hz with rfl | hz2
            · simpa using hw
            · exact ih (i + 1) h z hz2

theorem eq_of_id_eq (L : List Resource) (hnd : (rids L).Nodup) (a b : Resource)
    (ha : a ∈ L) (hb : b ∈ L) (h : a.id = b.id) : a = b :=
  List.inj_on_of_nodup_map hnd ha hb h

theorem first_class_unique (R : List Resource) (q : Option Str) :
    ∀ (u : List Str) (x : Str) (v u2 : List Str) (x2 : Str) (v2 : List Str),
    u ++ x :: v = u2 ++ x2 :: v2 →
    (∀ z ∈ u, classOf R z ≠ q) → (∀ z ∈ u2, classOf R z ≠ q) →
    classOf R x = q → classOf R x2 = q →
    u = u2 ∧ x = x2 ∧ v = v2 := by
  intro u
  induction u with
  | nil =>
      intro x v u2 x2 v2 heq hu hu2 hx hx2
      cases u2 with
      | nil =>
          simp at heq
          exact ⟨rfl, heq.1, heq.2⟩
      | cons w u2t =>
          simp at heq
          refine absurd hx ?_
          rw [heq.1]
          exact hu2 w (by simp)
  | cons w ut ih =>
      intro x v u2 x2 v2 heq hu hu2 hx hx2
      cases u2 with
      | nil =>
          simp at heq
          refine absurd hx2 ?_
          rw [← heq.1]
          exact hu w (by simp)
      | cons w2 u2t =>
          simp at heq
          obtain ⟨h1, h2, h3⟩ := ih x v u2t x2 v2 heq.2
            (fun z hz => hu z (by simp [hz])) (fun z hz => hu2 z (by simp [hz])) hx hx2
          exact ⟨by rw [heq.1, h1], h2, h3⟩

theorem insert_mid_class_free (R : List Resource) (q : Option Str) (z : Str)
    (hz : classOf R z ≠ q) (u : List Str) (x : Str) (v U V : List Str)
    (heq : u ++ x :: v = U ++ V)
    (hu : ∀ w ∈ u, classOf R w ≠ q) :
    ∃ u2 v2, U ++ z :: V = u2 ++ x :: v2 ∧ ∀ w ∈ u2, classOf R w ≠ q := by
  rcases List.append_eq_append_iff.mp heq with ⟨a, ha1, ha2⟩ | ⟨c, hc1, hc2⟩
  · cases a with
    | nil =>
        refine ⟨u ++ [z], v, ?_, ?_⟩
        · rw [ha1, ← (by simpa using ha2 : x :: v = V)]
          simp
        · intro w hw
          rcases List.mem_append.mp hw with h | h
          · exact hu w h
          · rw [List.mem_singleton.mp h]
            exact hz
    | cons a0 at2 =>
        simp at ha2
        obtain ⟨hxa, hva⟩ := ha2
        refine ⟨u, at2 ++ z :: V, ?_, hu⟩
        rw [ha1, ← hxa]
        simp
  · refine ⟨U ++ z :: c, v, ?_, ?_⟩
    · rw [hc2]
      simp
    · intro w hw
      rcases List.mem_append.mp hw with h | h
      · exact hu w (by rw [hc1]; exact List.mem_append.mpr (Or.inl h))
      · rcases List.mem_cons.mp h with rfl | h2
        · exact hz
        · exact hu w (by rw [hc1]; exact List.mem_append.mpr (Or.inr h2))

theorem replace_first_other (R : List Resource) (q : Option Str) (w : Str)
    (hw : classOf R w ≠ q) (u : List Str) (x : Str) (v U : List Str) (y : Str) (V : List Str)
    (heq : u ++ x :: v = U ++ y :: V)
    (hu : ∀ z ∈ u, classOf R z ≠ q)
    (hx : classOf R x = q)
    (hy : classOf R y ≠ q) :
    ∃ u2 v2, U ++ w :: V = u2 ++ x :: v2 ∧ ∀ z ∈ u2, classOf R z ≠ q := by
  rcases List.append_eq_append_iff.mp heq with ⟨a, ha1, ha2⟩ | ⟨c, hc1, hc2⟩
  · cases a with
    | nil =>
        simp at ha2
        refine absurd hx ?_
        rw [ha2.1]
        exact hy
    | cons a0 at2 =>
        simp at ha2
        obtain ⟨hxa, hva⟩ := ha2
        refine ⟨u, at2 ++ w :: V, ?_, hu⟩
        rw [ha1, ← hxa]
        simp
  · cases c with
    | nil =>
        simp at hc2
        refine absurd hx ?_
        rw [← hc2.1]
        exact hy
    | cons c0 ct =>
        simp at hc2
        obtain ⟨hyc, hVc⟩ := hc2
        refine ⟨U ++ w :: ct, v, ?_, ?_⟩
        · rw [hVc]
          simp
        · intro z hz
          rcases List.mem_append.mp hz with h | h
          · exact hu z (by rw [hc1]; exact List.mem_append.mpr (Or.inl h))
          · rcases List.mem_cons.mp h with rfl | h2
            · exact hw
            · exact hu z (by rw [hc1]; exact List.mem_append.mpr (Or.inr (by simp [h2])))

theorem forall2_split_right (p : Node → Node → Prop) :
    ∀ (u : List Node) (a : Node) (v : List Node) (xs : List Node),
    List.Forall₂ p xs (u ++ a :: v) →
    ∃ xu b xv, xs = xu ++ b :: xv ∧ List.Forall₂ p xu u ∧ p b a ∧ List.Forall₂ p xv v := by
  intro u
  induction u with
  | nil =>
      intro a v xs h
      cases h with
      | cons h1 h2 => exact ⟨[], _, _, rfl, List.Forall₂.nil, h1, h2⟩
  | cons b ut ih =>
      intro a v xs h
      cases h with
      | cons h1 h2 =>
          obtain ⟨xu, bb, xv, hx, hf1, hp, hf2⟩ := ih a v _ h2
          exact ⟨_ :: xu, bb, xv, by rw [hx]; rfl, List.Forall₂.cons h1 hf1, hp, hf2⟩

theorem forall2_split_right_str (p : Str → Str → Prop) :
    ∀ (u : List Str) (a : Str) (v : List Str) (xs : List Str),
    List.Forall₂ p xs (u ++ a :: v) →
    ∃ xu b xv, xs = xu ++ b :: xv ∧ List.Forall₂ p xu u ∧ p b a ∧ List.Forall₂ p xv v := by
  intro u
  induction u with
  | nil =>
      intro a v xs h
      cases h with
      | cons h1 h2 => exact ⟨[], _, _, rfl, List.Forall₂.nil, h1, h2⟩
  | cons b ut ih =>
      intro a v xs h
      cases h with
      | cons h1 h2 =>
          obtain ⟨xu, bb, xv, hx, hf1, hp, hf2⟩ := ih a v _ h2
          exact ⟨_ :: xu, bb, xv, by rw [hx]; rfl, List.Forall₂.cons h1 hf1, hp, hf2⟩

theorem forall2_split_left_str (p : Str → Str → Prop) :
    ∀ (u : List Str) (a : Str) (v : List Str) (ys : List Str),
    List.Forall₂ p (u ++ a :: v) ys →
    ∃ yu b yv, ys = yu ++ b :: yv ∧ List.Forall₂ p u yu ∧ p a b ∧ List.Forall₂ p v yv := by
  intro u
  induction u with
  | nil =>
      intro a v ys h
      cases h with
      | cons h1 h2 => exact ⟨[], _, _, rfl, List.Forall₂.nil, h1, h2⟩
  | cons b ut ih =>
      intro a v ys h
      cases h with
      | cons h1 h2 =>
          obtain ⟨yu, bb, yv, hy, hf1, hp, hf2⟩ := ih a v _ h2
          exact ⟨_ :: yu, bb, yv, by rw [hy]; rfl, List.Forall₂.cons h1 hf1, hp, hf2⟩

theorem shape_eq_of_tokIds (d0 d : List Node) (hs : List.Forall₂ shapePair d0 d)
    (ht : tokIds d0 = tokIds d) : d0 = d := by
  induction hs with
  | nil => rfl
  | cons hpair htail ih =>
      rename_i n m l0 l
      rcases hpair with rfl | ⟨x, y, hn, hm⟩
      · cases n with
        | text s => exact congrArg _ (ih (by simpa [tokIds] using ht))
        | br => exact congrArg _ (ih (by simpa [tokIds] using ht))
        | tok x =>
            rw [show tokIds (Node.tok x :: l0) = x :: tokIds l0 from rfl,
              show tokIds (Node.tok x :: l) = x :: tokIds l from rfl] at ht
            injection ht with h1 h2
            exact congrArg _ (ih h2)
      · subst hn
        subst hm
        rw [show tokIds (Node.tok x :: l0) = x :: tokIds l0 from rfl,
          show tokIds (Node.tok y :: l) = y :: tokIds l from rfl] at ht
        injection ht with h1 h2
        rw [h1]
        exact congrArg _ (ih h2)

theorem tokIds_updSettle_eq (d : List Node) : tokIds (updSettle d) = tokIds d := by
  rw [tokIds_updSettle]
  split
  · next h =>
      have h2 : ¬ (tokIds d ≠ []) := h.1
      rw [not_not.mp h2]
  · rfl

theorem mergeStep_cases (R : List Resource) (a : MSt) (r : Resource) :
    (r.id ∈ a.rmap ∧ mergeStep R a r = a)
    ∨ (r.id ∉ a.rmap ∧ ¬ isCP r ∧ mergeStep R a r = mergeIns a r)
    ∨ (r.id ∉ a.rmap ∧ isCP r ∧ findTagAux R r a.doc 0 = none ∧ mergeStep R a r = mergeIns a r)
    ∨ (∃ j y, r.id ∉ a.rmap ∧ isCP r ∧ findTagAux R r a.doc 0 = some (j, y) ∧ y ≠ r.id ∧
        mergeStep R a r = { a with
                            doc := a.doc.set j (Node.tok r.id),
                            rmap := addKey (a.rmap.filter fun k => k ≠ y) r.id })
    ∨ (∃ j, r.id ∉ a.rmap ∧ isCP r ∧ findTagAux R r a.doc 0 = some (j, r.id) ∧
        mergeStep R a r = a) := by
  by_cases h1 : r.id ∈ a.rmap
  · exact Or.inl ⟨h1, by unfold mergeStep; rw [if_pos h1]⟩
  · by_cases h2 : isCP r
    · have h2x : r.rtype = RType.code ∧ r.filePath.getD [] ≠ [] := h2
      have hfb : findTagByFilePath R r a.doc = findTagAux R r a.doc 0 := by
        unfold findTagByFilePath
        rw [if_pos h2x]
      cases hft : findTagAux R r a.doc 0 with
      | none =>
          refine Or.inr (Or.inr (Or.inl ⟨h1, h2, rfl, ?_⟩))
          unfold mergeStep
          rw [if_neg h1, if_pos h2x, hfb, hft]
      | some p =>
          have hstep : mergeStep R a r
              = if p.2 ≠ r.id then
                  { a with
                    doc := a.doc.set p.1 (Node.tok r.id),
                    rmap := addKey (a.rmap.filter fun k => k ≠ p.2) r.id }
                else a := by
            unfold mergeStep
            rw [if_neg h1, if_pos h2x, hfb, hft]
          by_cases h3 : p.2 ≠ r.id
          · refine Or.inr (Or.inr (Or.inr (Or.inl ⟨p.1, p.2, h1, h2, rfl, h3, ?_⟩)))
            rw [hstep, if_pos h3]
          · have hp2 : p.2 = r.id := not_not.mp h3
            refine Or.inr (Or.inr (Or.inr (Or.inr ⟨p.1, h1, h2, ?_, ?_⟩)))
            · rw [← hp2]
            · rw [hstep, if_neg h3]
    · exact Or.inr (Or.inl ⟨h1, h2, by
        unfold mergeStep
        rw [if_neg h1, if_neg (show ¬ (r.rtype = RType.code ∧ r.filePath.getD [] ≠ [])
          from h2)]⟩)

theorem mergeStep_bounded (R : List Resource) (r : Resource) (a : MSt) (hrR : r ∈ R)
    (hb : ∀ id ∈ tokIds a.doc, id ∈ rids R) :
    ∀ id ∈ tokIds (mergeStep R a r).doc, id ∈ rids R := by
  rcases mergeStep_cases R a r with ⟨h1, hstep⟩ | ⟨h1, hcp, hstep⟩ | ⟨h1, hcp, hft, hstep⟩
    | ⟨j, y, h1, hcp, hft, hne, hstep⟩ | ⟨j, h1, hcp, hft, hstep⟩
  · rw [hstep]
    exact hb
  · rw [hstep]
    intro id hid
    rw [show (mergeIns a r).doc = (insTagAt a.doc a.sel r.id).1 from rfl] at hid
    rcases (mem_tokIds_insTagAt a.doc a.sel r.id id).mp hid with rfl | hid2
    · exact mem_rids_of_mem R r hrR
    · exact hb id hid2
  · rw [hstep]
    intro id hid
    rw [show (mergeIns a r).doc = (insTagAt a.doc a.sel r.id).1 from rfl] at hid
    rcases (mem_tokIds_insTagAt a.doc a.sel r.id id).mp hid with rfl | hid2
    · exact mem_rids_of_mem R r hrR
    · exact hb id hid2
  · obtain ⟨pre, post, hd, hj, hm, hmin⟩ := findTagAux_some_min R r a.doc 0 j y hft
    rw [hstep]
    intro id hid
    rw [show ({ a with
                doc := a.doc.set j (Node.tok r.id),
                rmap := addKey (a.rmap.filter fun k => k ≠ y) r.id } : MSt).doc
      = a.doc.set j (Node.tok r.id) from rfl] at hid
    rw [hd, show j = pre.length by rw [hj]; simp, set_at_append] at hid
    rw [tokIds_append, show tokIds (Node.tok r.id :: post) = r.id :: tokIds post from rfl] at hid
    rcases List.mem_append.mp hid with h | h
    · refine hb id ?_
      rw [hd, tokIds_append]
      exact List.mem_append.mpr (Or.inl h)
    · rcases List.mem_cons.mp h with rfl | h2
      · exact mem_rids_of_mem R r hrR
      · refine hb id ?_
        rw [hd, tokIds_append, show tokIds (Node.tok y :: post) = y :: tokIds post from rfl]
        exact List.mem_append.mpr (Or.inr (by simp [h2]))
  · rw [hstep]
    exact hb

theorem run1_fold (R : List Resource) (hndR : (rids R).Nodup) :
    ∀ (M P : List Resource) (a : MSt), R = P ++ M →
    (∀ id, id ∈ tokIds a.doc → id ∈ a.rmap) →
    (tokIds a.doc).Nodup →
    (∀ id, id ∈ tokIds a.doc → id ∈ rids R) →
    (∀ e ∈ R, ¬ isCP e → e ∉ M → e.id ∈ a.rmap) →
    (∀ e ∈ R, isCP e → e ∉ M → e.id ∉ a.rmap → stageProm R M a.rmap (tokIds a.doc) e) →
    (∀ id, id ∈ tokIds (M.foldl (mergeStep R) a).doc → id ∈ (M.foldl (mergeStep R) a).rmap)
    ∧ (tokIds (M.foldl (mergeStep R) a).doc).Nodup
    ∧ (∀ id, id ∈ tokIds (M.foldl (mergeStep R) a).doc → id ∈ rids R)
    ∧ (∀ e ∈ R, ¬ isCP e → e.id ∈ (M.foldl (mergeStep R) a).rmap)
    ∧ (∀ e ∈ R, isCP e → e.id ∉ (M.foldl (mergeStep R) a).rmap →
        stageProm R [] (M.foldl (mergeStep R) a).rmap
          (tokIds (M.foldl (mergeStep R) a).doc) e) := by
  intro M
  induction M with
  | nil =>
      intro P a hR hcov hnd hb hw6 hw7
      exact ⟨hcov, hnd, hb, fun e he hcp => hw6 e he hcp (List.not_mem_nil e),
        fun e he hcp hek => hw7 e he hcp (List.not_mem_nil e) hek⟩
  | cons r M ih =>
      intro P a hR hcov hnd hb hw6 hw7
      have hrR : r ∈ R := by rw [hR]; simp
      have hRM : R = (P ++ [r]) ++ M := by rw [hR]; simp
      have hpres := mergeStep_preserves R r a hcov hnd
      have hb2 := mergeStep_bounded R r a hrR hb
      rw [List.foldl_cons]
      rcases mergeStep_cases R a r with ⟨h1, hstep⟩ | ⟨h1, hcp, hstep⟩ | ⟨h1, hcp, hft, hstep⟩
        | ⟨j, y, h1, hcp, hft, hne, hstep⟩ | ⟨j, h1, hcp, hft, hstep⟩
      · -- keep
        refine ih (P ++ [r]) (mergeStep R a r) hRM hpres.1 hpres.2 hb2 ?_ ?_
        · intro e heR hncp heM
          rw [hstep]
          by_cases he : e = r
          · rw [he]
            exact h1
          · exact hw6 e heR hncp (by
              intro hc
              rcases List.mem_cons.mp hc with h | h
              · exact he h
              · exact heM h)
        · intro e heR hcpe heM hek
          rw [hstep] at hek ⊢
          by_cases he : e = r
          · rw [he] at hek
            exact absurd h1 hek
          · obtain ⟨u, x, v, hT, hu, hx, l1, f, l2, hsplit, hfid, hel1, hprom⟩ :=
              hw7 e heR hcpe (by
                intro hc
                rcases List.mem_cons.mp hc with h | h
                · exact he h
                · exact heM h) hek
            refine ⟨u, x, v, hT, hu, hx, l1, f, l2, hsplit, hfid, hel1, ?_⟩
            intro g hg hgcp hgp
            rcases hprom g hg hgcp hgp with h | h
            · exact Or.inl h
            · rcases List.mem_cons.mp h with rfl | h2
              · exact Or.inl h1
              · exact Or.inr h2
      · -- insert, non-code entry
        obtain ⟨U, V, hUV, hIns⟩ := tokIds_insTagAt a.doc a.sel r.id
        have hrmap : (mergeStep R a r).rmap = addKey a.rmap r.id := by
          rw [hstep]
          rfl
        have htok : tokIds (mergeStep R a r).doc = U ++ r.id :: V := by
          rw [hstep]
          exact hIns
        refine ih (P ++ [r]) (mergeStep R a r) hRM hpres.1 hpres.2 hb2 ?_ ?_
        · intro e heR hncp heM
          rw [hrmap]
          by_cases he : e = r
          · rw [he]
            exact (mem_addKey _ _ _).mpr (Or.inl rfl)
          · exact (mem_addKey _ _ _).mpr (Or.inr (hw6 e heR hncp (by
              intro hc
              rcases List.mem_cons.mp hc with h | h
              · exact he h
              · exact heM h)))
        · intro e heR hcpe heM hek
          rw [hrmap] at hek
          have h1e : e.id ∉ a.rmap := fun hm => hek ((mem_addKey _ _ _).mpr (Or.inr hm))
          have hner : e.id ≠ r.id := fun h => hek ((mem_addKey _ _ _).mpr (Or.inl h))
          have he : e ≠ r := fun h => hner (by rw [h])
          obtain ⟨u, x, v, hT, hu, hx, l1, f, l2, hsplit, hfid, hel1, hprom⟩ :=
            hw7 e heR hcpe (by
              intro hc
              rcases List.mem_cons.mp hc with h | h
              · exact he h
              · exact heM h) h1e
          have hz : classOf R r.id ≠ some (pathOf e) :=
            classOf_not_isCP R hndR e r hrR hcpe hcp
          obtain ⟨u2, v2, hnew, hu2⟩ := insert_mid_class_free R (some (pathOf e)) r.id hz
            u x v U V (hT.symm.trans hUV) hu
          refine ⟨u2, x, v2, by rw [htok, hnew], hu2, hx, l1, f, l2, hsplit, hfid, hel1, ?_⟩
          intro g hg hgcp hgp
          rcases hprom g hg hgcp hgp with h | h
          · exact Or.inl (by rw [hrmap]; exact (mem_addKey _ _ _).mpr (Or.inr h))
          · rcases List.mem_cons.mp h with rfl | h2
            · exact absurd hgcp hcp
            · exact Or.inr h2
      · -- insert, code entry without a matching tag
        obtain ⟨U, V, hUV, hIns⟩ := tokIds_insTagAt a.doc a.sel r.id
        have hnomatch := findTagAux_none R r a.doc 0 hft
        have hrmap : (mergeStep R a r).rmap = addKey a.rmap r.id := by
          rw [hstep]
          rfl
        have htok : tokIds (mergeStep R a r).doc = U ++ r.id :: V := by
          rw [hstep]
          exact hIns
        refine ih (P ++ [r]) (mergeStep R a r) hRM hpres.1 hpres.2 hb2 ?_ ?_
        · intro e heR hncp heM
          rw [hrmap]
          by_cases he : e = r
          · exact absurd hcp (by rw [← he]; exact hncp)
          · exact (mem_addKey _ _ _).mpr (Or.inr (hw6 e heR hncp (by
              intro hc
              rcases List.mem_cons.mp hc with h | h
              · exact he h
              · exact heM h)))
        · intro e heR hcpe heM hek
          rw [hrmap] at hek
          have h1e : e.id ∉ a.rmap := fun hm => hek ((mem_addKey _ _ _).mpr (Or.inr hm))
          have hner : e.id ≠ r.id := fun h => hek ((mem_addKey _ _ _).mpr (Or.inl h))
          have he : e ≠ r := fun h => hner (by rw [h])
          obtain ⟨u, x, v, hT, hu, hx, l1, f, l2, hsplit, hfid, hel1, hprom⟩ :=
            hw7 e heR hcpe (by
              intro hc
              rcases List.mem_cons.mp hc with h | h
              · exact he h
              · exact heM h) h1e
          have hpne : pathOf r ≠ pathOf e := by
            intro hpe
            have hxm : tagMatches R r x = true := (tagMatches_iff R r x).mpr (by
              rw [hx, ← hpe])
            have hxmem : x ∈ tokIds a.doc := by rw [hT]; simp
            rw [hnomatch x hxmem] at hxm
            cases hxm
          have hz : classOf R r.id ≠ some (pathOf e) := by
            rw [classOf_of_isCP R hndR r hrR hcp]
            intro hpp
            exact hpne (Option.some_inj.mp hpp)
          obtain ⟨u2, v2, hnew, hu2⟩ := insert_mid_class_free R (some (pathOf e)) r.id hz
            u x v U V (hT.symm.trans hUV) hu
          refine ⟨u2, x, v2, by rw [htok, hnew], hu2, hx, l1, f, l2, hsplit, hfid, hel1, ?_⟩
          intro g hg hgcp hgp
          rcases hprom g hg hgcp hgp with h | h
          · exact Or.inl (by rw [hrmap]; exact (mem_addKey _ _ _).mpr (Or.inr h))
          · rcases List.mem_cons.mp h with rfl | h2
            · exact absurd hgp hpne
            · exact Or.inr h2
      · -- re-key
        obtain ⟨pre, post, hd, hj0, hm, hmin⟩ := findTagAux_some_min R r a.doc 0 j y hft
        have hj : j = pre.length := by rw [hj0]; simp
        have hrmap : (mergeStep R a r).rmap = addKey (a.rmap.filter fun k => k ≠ y) r.id := by
          rw [hstep]
        have hdoc2 : (mergeStep R a r).doc = pre ++ Node.tok r.id :: post := by
          rw [hstep]
          rw [show ({ a with
              doc := a.doc.set j (Node.tok r.id),
              rmap := addKey (a.rmap.filter fun k => k ≠ y) r.id } : MSt).doc
            = a.doc.set j (Node.tok r.id) from rfl, hd, hj, set_at_append]
        have holdtok : tokIds a.doc = tokIds pre ++ y :: tokIds post := by
          rw [hd, tokIds_append]
          rfl
        have hnewtok : tokIds (mergeStep R a r).doc = tokIds pre ++ r.id :: tokIds post := by
          rw [hdoc2, tokIds_append]
          rfl
        have hUfree : ∀ z ∈ tokIds pre, classOf R z ≠ some (pathOf r) :=
          fun z hz => (tagMatches_false_iff R r z).mp (hmin z hz)
        have hycl : classOf R y = some (pathOf r) := (tagMatches_iff R r y).mp hm
        have hrcl : classOf R r.id = some (pathOf r) := classOf_of_isCP R hndR r hrR hcp
        refine ih (P ++ [r]) (mergeStep R a r) hRM hpres.1 hpres.2 hb2 ?_ ?_
        · intro e heR hncp heM
          rw [hrmap]
          by_cases he : e = r
          · exact absurd hcp (by rw [← he]; exact hncp)
          · have heold : e.id ∈ a.rmap := hw6 e heR hncp (by
              intro hc
              rcases List.mem_cons.mp hc with h | h
              · exact he h
              · exact heM h)
            have hey : e.id ≠ y := by
              intro h
              refine classOf_not_isCP R hndR r e heR ?_ hncp ?_
              · exact hcp
              · rw [h]
                exact hycl
            exact (mem_addKey _ _ _).mpr (Or.inr (List.mem_filter.mpr ⟨heold, by simp [hey]⟩))
        · intro e heR hcpe heM hek
          rw [hrmap] at hek
          have hner : e.id ≠ r.id := fun h => hek ((mem_addKey _ _ _).mpr (Or.inl h))
          have he : e ≠ r := fun h => hner (by rw [h])
          have heP : e ∈ P := by
            rw [hR] at heR
            rcases List.mem_append.mp heR with h | h
            · exact h
            · rcases List.mem_cons.mp h with h2 | h2
              · exact absurd h2 he
              · exact absurd h2 heM
          by_cases hey : e.id = y
          · -- the overwritten occupant: rebuild its record anchored at the new occupant
            have hecl : classOf R e.id = some (pathOf e) := classOf_of_isCP R hndR e heR hcpe
            have hpe : pathOf e = pathOf r := by
              have h2 : classOf R e.id = some (pathOf r) := by rw [hey]; exact hycl
              rw [hecl] at h2
              exact Option.some_inj.mp h2
            refine ⟨tokIds pre, r.id, tokIds post, hnewtok, ?_, ?_, P, r, M, hR, rfl, heP, ?_⟩
            · rw [hpe]
              exact hUfree
            · rw [hpe]
              exact hrcl
            · intro g hg _ _
              exact Or.inr hg
          · have h1e : e.id ∉ a.rmap := fun hm => hek ((mem_addKey _ _ _).mpr
              (Or.inr (List.mem_filter.mpr ⟨hm, by simp [hey]⟩)))
            obtain ⟨u, x, v, hT, hu, hx, l1, f, l2, hsplit, hfid, hel1, hprom⟩ :=
              hw7 e heR hcpe (by
                intro hc
                rcases List.mem_cons.mp hc with h | h
                · exact he h
                · exact heM h) h1e
            by_cases hpp : pathOf e = pathOf r
            · -- same class: the re-key hits exactly this record's anchor position
              obtain ⟨hu', hx', hv'⟩ := first_class_unique R (some (pathOf e)) u x v
                (tokIds pre) y (tokIds post) (hT.symm.trans holdtok) hu
                (by rw [hpp]; exact hUfree) hx (by rw [hpp]; exact hycl)
              refine ⟨tokIds pre, r.id, tokIds post, hnewtok, ?_, ?_, P, r, M, hR, rfl, heP, ?_⟩
              · rw [hpp]
                exact hUfree
              · rw [hpp]
                exact hrcl
              · intro g hg _ _
                exact Or.inr hg
            · -- other class: the replaced token is invisible to this record
              have hz : classOf R r.id ≠ some (pathOf e) := by
                rw [hrcl]
                intro hc
                exact hpp (Option.some_inj.mp hc).symm
              have hzy : classOf R y ≠ some (pathOf e) := by
                rw [hycl]
                intro hc
                exact hpp (Option.some_inj.mp hc).symm
              obtain ⟨u2, v2, hnew, hu2⟩ := replace_first_other R (some (pathOf e)) r.id hz
                u x v (tokIds pre) y (tokIds post) (hT.symm.trans holdtok) hu hx hzy
              refine ⟨u2, x, v2, by rw [hnewtok, hnew], hu2, hx, l1, f, l2, hsplit, hfid,
                hel1, ?_⟩
              intro g hg hgcp hgp
              have hgR : g ∈ R := by
                rw [hsplit]
                simp [hg]
              rcases hprom g hg hgcp hgp with h | h
              · refine Or.inl ?_
                rw [hrmap]
                have hgy : g.id ≠ y := by
                  intro hgy
                  have hgcl : classOf R g.id = some (pathOf g) :=
                    classOf_of_isCP R hndR g hgR hgcp
                  rw [hgy, hycl] at hgcl
                  exact hpp (by rw [← hgp]; exact (Option.some_inj.mp hgcl).symm)
                exact (mem_addKey _ _ _).mpr (Or.inr (List.mem_filter.mpr ⟨h, by simp [hgy]⟩))
              · rcases List.mem_cons.mp h with rfl | h2
                · exact absurd hgp.symm hpp
                · exact Or.inr h2
      · -- found tag already carries the id: impossible, the id would be keyed
        obtain ⟨pre, post, hd, hj0, hm, hmin⟩ := findTagAux_some_min R r a.doc 0 j r.id hft
        refine absurd (hcov r.id ?_) h1
        rw [hd, tokIds_append]
        simp [tokIds]

theorem forall2_mem_left (p : Str → Str → Prop) :
    ∀ (xs ys : List Str), List.Forall₂ p xs ys → ∀ x ∈ xs, ∃ y ∈ ys, p x y := by
  intro xs ys h
  induction h with
  | nil => intro x hx; cases hx
  | cons h1 h2 ih =>
      intro x hx
      rcases List.mem_cons.mp hx with rfl | hx2
      · exact ⟨_, by simp, h1⟩
      · obtain ⟨yy, hyy, hp⟩ := ih x hx2
        exact ⟨yy, by simp [hyy], hp⟩

theorem forall2_imp_mem (p q : Str → Str → Prop) :
    ∀ (xs ys : List Str), List.Forall₂ p xs ys →
    (∀ x y, x ∈ xs → y ∈ ys → p x y → q x y) → List.Forall₂ q xs ys := by
  intro xs ys h
  induction h with
  | nil => intro _; exact List.Forall₂.nil
  | cons h1 h2 ih =>
      intro hq
      refine List.Forall₂.cons (hq _ _ (by simp) (by simp) h1) (ih ?_)
      intro x yy hx hy hp
      exact hq x yy (by simp [hx]) (by simp [hy]) hp

theorem rids_split (l1 : List Resource) (f : Resource) (l2 : List Resource) :
    rids (l1 ++ f :: l2) = rids l1 ++ f.id :: rids l2 := by
  unfold rids
  simp

theorem run2_fold (R : List Resource) (hndR : (rids R).Nodup) (d0 : List Node)
    (hnd0 : (tokIds d0).Nodup) :
    ∀ (L : List Resource) (b : MSt),
    (∀ f ∈ L, f ∈ R) →
    (rids L).Nodup →
    (∀ id, id ∈ tokIds b.doc → id ∈ b.rmap) →
    (tokIds b.doc).Nodup →
    (∀ id, id ∈ tokIds b.doc → id ∈ rids R) →
    List.Forall₂ shapePair d0 b.doc →
    List.Forall₂ (pairOK R L b.rmap (tokIds d0)) (tokIds d0) (tokIds b.doc) →
    (∀ e ∈ L, ¬ isCP e → e.id ∈ b.rmap) →
    (∀ e ∈ L, isCP e → e.id ∉ b.rmap → anchorProm R L b.rmap (tokIds d0) e) →
    (L.foldl (mergeStep R) b).doc = d0 := by
  intro L
  induction L with
  | nil =>
      intro b _ _ hcov hnd hb hshape hpairs h6 h7
      have h2 : List.Forall₂ (fun x y : Str => x = y) (tokIds d0) (tokIds b.doc) := by
        refine hpairs.imp ?_
        intro x yy hp
        rcases hp.2 with h | h
        · exact h
        · obtain ⟨_, _, ⟨f, hf, _⟩, _⟩ := h
          exact absurd hf (List.not_mem_nil f)
      rw [List.forall₂_eq_eq_eq] at h2
      exact (shape_eq_of_tokIds d0 b.doc hshape h2).symm
  | cons r L ih =>
      intro b hLR hndL hcov hnd hb hshape hpairs h6 h7
      have hrR : r ∈ R := hLR r (by simp)
      have hLR2 : ∀ f ∈ L, f ∈ R := fun f hf => hLR f (by simp [hf])
      have hndL2 : (rids L).Nodup := by
        rw [show rids (r :: L) = r.id :: rids L from rfl] at hndL
        exact (List.nodup_cons.mp hndL).2
      have hridL : r.id ∉ rids L := by
        rw [show rids (r :: L) = r.id :: rids L from rfl] at hndL
        exact (List.nodup_cons.mp hndL).1
      have hpres := mergeStep_preserves R r b hcov hnd
      have hb2 := mergeStep_bounded R r b hrR hb
      rw [List.foldl_cons]
      rcases mergeStep_cases R b r with ⟨h1, hstep⟩ | ⟨h1, hcp, hstep⟩ | ⟨h1, hcp, hft, hstep⟩
        | ⟨j, y, h1, hcp, hft, hne, hstep⟩ | ⟨j, h1, hcp, hft, hstep⟩
      · -- keep: the pending entry is keyed, nothing changes
        rw [hstep]
        refine ih b hLR2 hndL2 hcov hnd hb hshape ?_ ?_ ?_
        · refine hpairs.imp ?_
          intro x yy hp
          refine ⟨hp.1, ?_⟩
          rcases hp.2 with h | h
          · exact Or.inl h
          · obtain ⟨hk, hfc, ⟨f, hf, hfid, hfcp⟩, hyall⟩ := h
            have hfr : f ≠ r := by
              intro hfr
              refine hk ?_
              rw [← hfid, hfr]
              exact h1
            refine Or.inr ⟨hk, hfc, ⟨f, ?_, hfid, hfcp⟩, fun g hg => hyall g (by simp [hg])⟩
            rcases List.mem_cons.mp hf with h2 | h2
            · exact absurd h2 hfr
            · exact h2
        · exact fun e he hncp => h6 e (by simp [he]) hncp
        · intro e he hcpe hek
          obtain ⟨u, x, v, hT, hu, hx, l1, f, l2, hsplit, hfid, hef, hprom⟩ :=
            h7 e (by simp [he]) hcpe hek
          have her : e ≠ r := by
            intro h
            rw [h] at he
            exact hridL (mem_rids_of_mem L r he)
          rcases List.cons_eq_append_iff.mp hsplit with ⟨hl1, hfl2⟩ | ⟨l1t, hl1, hLt⟩
          · injection hfl2 with hf1 hf2
            rcases hef with hef2 | hel1
            · exact absurd (hef2.trans hf1) her
            · rw [hl1] at hel1
              exact absurd hel1 (List.not_mem_nil e)
          · refine ⟨u, x, v, hT, hu, hx, l1t, f, l2, hLt, hfid, ?_, hprom⟩
            rcases hef with hef2 | hel1
            · exact Or.inl hef2
            · rw [hl1] at hel1
              rcases List.mem_cons.mp hel1 with h2 | h2
              · exact absurd h2 her
              · exact Or.inr h2
      · -- non-code pending entry is always keyed: insert impossible
        exact absurd (h6 r (by simp) hcp) h1
      · -- unkeyed code entry always finds a class token: no-match impossible
        obtain ⟨u, x, v, hT, hu, hx, l1, f, l2, hsplit, hfid, hef, hprom⟩ :=
          h7 r (by simp) hcp h1
        obtain ⟨yu, yy, yv, hTb, hp1, hpxy, hp2⟩ := forall2_split_left_str _ u x v _
          (by rw [← hT]; exact hpairs)
        have hyycl : classOf R yy = some (pathOf r) := by
          rw [← hpxy.1]
          exact hx
        have hyym : tagMatches R r yy = true := (tagMatches_iff R r yy).mpr hyycl
        have hmem : yy ∈ tokIds b.doc := by
          rw [hTb]
          simp
        have hnone := findTagAux_none R r b.doc 0 hft yy hmem
        rw [hnone] at hyym
        cases hyym
      · -- re-key: the churn step
        obtain ⟨pre, post, hd, hj0, hm, hmin⟩ := findTagAux_some_min R r b.doc 0 j y hft
        have hj : j = pre.length := by rw [hj0]; simp
        have hrmap : (mergeStep R b r).rmap
            = addKey (b.rmap.filter fun k => k ≠ y) r.id := by
          rw [hstep]
        have hdoc2 : (mergeStep R b r).doc = pre ++ Node.tok r.id :: post := by
          rw [hstep]
          rw [show ({ b with
              doc := b.doc.set j (Node.tok r.id),
              rmap := addKey (b.rmap.filter fun k => k ≠ y) r.id } : MSt).doc
            = b.doc.set j (Node.tok r.id) from rfl, hd, hj, set_at_append]
        have holdtok : tokIds b.doc = tokIds pre ++ y :: tokIds post := by
          rw [hd, tokIds_append]
          rfl
        have hnewtok : tokIds (mergeStep R b r).doc
            = tokIds pre ++ r.id :: tokIds post := by
          rw [hdoc2, tokIds_append]
          rfl
        have hUfree : ∀ z ∈ tokIds pre, classOf R z ≠ some (pathOf r) :=
          fun z hz => (tagMatches_false_iff R r z).mp (hmin z hz)
        have hycl : classOf R y = some (pathOf r) := (tagMatches_iff R r y).mp hm
        have hrcl : classOf R r.id = some (pathOf r) := classOf_of_isCP R hndR r hrR hcp
        obtain ⟨u, x, v, hT, hu, hx, l1, f, l2, hsplit, hfid, hef, hprom⟩ :=
          h7 r (by simp) hcp h1
        obtain ⟨U0, x0, V0, hT0, hpU, hpxy, hpV⟩ := forall2_split_right_str _
          (tokIds pre) y (tokIds post) _ (by rw [← holdtok]; exact hpairs)
        have hU0free : ∀ z ∈ U0, classOf R z ≠ some (pathOf r) := by
          intro z hz hc
          obtain ⟨z2, hz2, hpz⟩ := forall2_mem_left _ U0 (tokIds pre) hpU z hz
          refine hUfree z2 hz2 ?_
          rw [← hpz.1]
          exact hc
        have hx0cl : classOf R x0 = some (pathOf r) := hpxy.1.trans hycl
        obtain ⟨huU0, hxx0, hvV0⟩ := first_class_unique R (some (pathOf r)) u x v U0 x0 V0
          (hT.symm.trans hT0) hu hU0free hx hx0cl
        have hnd0c := hnd0
        rw [hT0] at hnd0c
        obtain ⟨hndU, hndxV, hdisj⟩ := List.nodup_append.mp hnd0c
        have hx0V : x0 ∉ V0 := (List.nodup_cons.mp hndxV).1
        have hx0U : x0 ∉ U0 := fun hm => hdisj hm (by simp)
        -- transfer of untouched position pairs to the new key set and pending list
        have htrans : ∀ xk yk : Str, (xk ∈ U0 ∨ xk ∈ V0) →
            pairOK R (r :: L) b.rmap (tokIds d0) xk yk →
            pairOK R L (addKey (b.rmap.filter fun k => k ≠ y) r.id) (tokIds d0) xk yk := by
          intro xk yk hmemk hp
          refine ⟨hp.1, ?_⟩
          rcases hp.2 with h | h
          · exact Or.inl h
          · obtain ⟨hk, hfc, ⟨fk, hfk, hfkid, hfkcp⟩, hyall⟩ := h
            have hxkr : xk ≠ r.id := by
              intro hxkr
              have hxkcl : classOf R xk = some (pathOf r) := by
                rw [hxkr]
                exact hrcl
              obtain ⟨u2, v2, hT02, hufree2⟩ := hfc
              obtain ⟨hh1, hh2, hh3⟩ := first_class_unique R (some (pathOf r)) u2 xk v2
                U0 x0 V0 (hT02.symm.trans hT0) (fun z hz => by
                  have h3 := hufree2 z hz
                  rw [hxkcl] at h3
                  exact h3) hU0free hxkcl hx0cl
              rcases hmemk with hmk | hmk
              · exact hx0U (by rw [← hh2]; exact hmk)
              · exact hx0V (by rw [← hh2]; exact hmk)
            have hfkr : fk ≠ r := fun hh => hxkr (by rw [← hfkid, hh])
            refine Or.inr ⟨?_, hfc, ⟨fk, ?_, hfkid, hfkcp⟩,
              fun g hg => hyall g (by simp [hg])⟩
            · intro hmem2
              rcases (mem_addKey _ _ _).mp hmem2 with hh | hh
              · exact hxkr hh
              · exact hk (List.mem_filter.mp hh).1
            · rcases List.mem_cons.mp hfk with hh | hh
              · exact absurd hh hfkr
              · exact hh
        have hpU2 : List.Forall₂
            (pairOK R L (addKey (b.rmap.filter fun k => k ≠ y) r.id) (tokIds d0))
            U0 (tokIds pre) :=
          forall2_imp_mem _ _ U0 (tokIds pre) hpU
            (fun xk yk hxk _ hp => htrans xk yk (Or.inl hxk) hp)
        have hpV2 : List.Forall₂
            (pairOK R L (addKey (b.rmap.filter fun k => k ≠ y) r.id) (tokIds d0))
            V0 (tokIds post) :=
          forall2_imp_mem _ _ V0 (tokIds post) hpV
            (fun xk yk hxk _ hp => htrans xk yk (Or.inr hxk) hp)
        -- new document shape
        obtain ⟨D1, nmid, D2, hd0split, hs1, hsmid, hs2⟩ := forall2_split_right _
          pre (Node.tok y) post _ (by rw [← hd]; exact hshape)
        have hmidtok : ∃ w, nmid = Node.tok w := by
          rcases hsmid with h | ⟨x2, y2, hn2, _⟩
          · exact ⟨y, h⟩
          · exact ⟨x2, hn2⟩
        obtain ⟨w, hw⟩ := hmidtok
        have hshape2 : List.Forall₂ shapePair d0 (mergeStep R b r).doc := by
          rw [hdoc2, hd0split]
          exact List.rel_append hs1 (List.Forall₂.cons (Or.inr ⟨w, r.id, hw, rfl⟩) hs2)
        -- non-code pending entries stay keyed
        have h62 : ∀ e ∈ L, ¬ isCP e → e.id ∈ (mergeStep R b r).rmap := by
          intro e he hncp
          rw [hrmap]
          have hey : e.id ≠ y := by
            intro hh
            refine classOf_not_isCP R hndR r e (hLR2 e he) hcp hncp ?_
            rw [hh]
            exact hycl
          exact (mem_addKey _ _ _).mpr (Or.inr (List.mem_filter.mpr
            ⟨h6 e (by simp [he]) hncp, by simp [hey]⟩))
        rcases List.cons_eq_append_iff.mp hsplit with ⟨hl1, hfl2⟩ | ⟨l1t, hl1, hLt⟩
        · -- the pending entry is its own anchor: this step restores the start id
          injection hfl2 with hf1 hf2
          have hx0r : x0 = r.id := by
            rw [← hxx0, ← hfid, hf1]
          have hmid : pairOK R L (addKey (b.rmap.filter fun k => k ≠ y) r.id)
              (tokIds d0) x0 r.id := ⟨by rw [hx0r], Or.inl hx0r⟩
          have hpairs2 : List.Forall₂ (pairOK R L (mergeStep R b r).rmap (tokIds d0))
              (tokIds d0) (tokIds (mergeStep R b r).doc) := by
            rw [hnewtok]
            have hcomb : List.Forall₂
                (pairOK R L (addKey (b.rmap.filter fun k => k ≠ y) r.id) (tokIds d0))
                (U0 ++ x0 :: V0) (tokIds pre ++ r.id :: tokIds post) :=
              List.rel_append hpU2 (List.Forall₂.cons hmid hpV2)
            rw [← hT0] at hcomb
            rw [hrmap]
            exact hcomb
          have h72 : ∀ e ∈ L, isCP e → e.id ∉ (mergeStep R b r).rmap →
              anchorProm R L (mergeStep R b r).rmap (tokIds d0) e := by
            intro e he hcpe hek
            rw [hrmap] at hek
            have her : e ≠ r := by
              intro h
              rw [h] at he
              exact hridL (mem_rids_of_mem L r he)
            have hner : e.id ≠ r.id := fun h => hek ((mem_addKey _ _ _).mpr (Or.inl h))
            by_cases hey : e.id = y
            · rcases hpxy.2 with hcl | hdi
              · refine absurd ?_ hne
                rw [← hcl, hx0r]
              · obtain ⟨_, _, _, hyall0⟩ := hdi
                exact absurd hey (hyall0 e (by simp [he]))
            · have h1e : e.id ∉ b.rmap := fun hm => hek ((mem_addKey _ _ _).mpr
                (Or.inr (List.mem_filter.mpr ⟨hm, by simp [hey]⟩)))
              obtain ⟨ue, xe, ve, hTe, hue, hxe, l1e, fe, l2e, hsplite, hfeid, hefe, hprome⟩ :=
                h7 e (by simp [he]) hcpe h1e
              by_cases hpp : pathOf e = pathOf r
              · obtain ⟨hh1, hh2, hh3⟩ := first_class_unique R (some (pathOf e)) ue xe ve
                  U0 x0 V0 (hTe.symm.trans hT0) hue (by rw [hpp]; exact hU0free) hxe
                  (by rw [hpp]; exact hx0cl)
                have hfeidr : fe.id = r.id := by rw [hfeid, hh2, hx0r]
                have hfer : fe = r := eq_of_id_eq (r :: L) hndL fe r
                  (by rw [hsplite]; simp) (by simp) hfeidr
                rcases List.cons_eq_append_iff.mp hsplite with ⟨hl1e, hfl2e⟩
                  | ⟨l1et, hl1e, hLte⟩
                · injection hfl2e with hfe1 hfe2
                  rcases hefe with hefe2 | hel1
                  · exact absurd (hefe2.trans hfe1) her
                  · rw [hl1e] at hel1
                    exact absurd hel1 (List.not_mem_nil e)
                · refine absurd (mem_rids_of_mem L r ?_) hridL
                  rw [hLte, ← hfer]
                  simp
              · rcases List.cons_eq_append_iff.mp hsplite with ⟨hl1e, hfl2e⟩
                  | ⟨l1et, hl1e, hLte⟩
                · injection hfl2e with hfe1 hfe2
                  have hxer : xe = r.id := by rw [← hfeid, hfe1]
                  refine absurd hxe ?_
                  rw [hxer, hrcl]
                  intro hc
                  exact hpp (Option.some_inj.mp hc).symm
                · refine ⟨ue, xe, ve, hTe, hue, hxe, l1et, fe, l2e, hLte, hfeid, ?_, ?_⟩
                  · rcases hefe with hefe2 | hel1
                    · exact Or.inl hefe2
                    · rw [hl1e] at hel1
                      rcases List.mem_cons.mp hel1 with h2 | h2
                      · exact absurd h2 her
                      · exact Or.inr h2
                  · intro g hg hgcp hgp
                    rw [hrmap]
                    have hgy : g.id ≠ y := by
                      intro hgy2
                      have hgcl : classOf R g.id = some (pathOf g) :=
                        classOf_of_isCP R hndR g (hLR2 g (by rw [hLte]; simp [hg])) hgcp
                      rw [hgy2, hycl] at hgcl
                      exact hpp (by rw [← hgp]; exact (Option.some_inj.mp hgcl).symm)
                    exact (mem_addKey _ _ _).mpr (Or.inr (List.mem_filter.mpr
                      ⟨hprome g hg hgcp hgp, by simp [hgy]⟩))
          exact ih (mergeStep R b r) hLR2 hndL2 hpres.1 hpres.2 hb2 hshape2 hpairs2 h62 h72
        · -- the anchor entry is still pending further on: the position goes or stays dirty
          have hfL : f ∈ L := by
            rw [hLt]
            simp
          have hfner : f.id ≠ r.id := by
            intro h
            refine hridL ?_
            rw [← h]
            exact mem_rids_of_mem L f hfL
          have hx0ner : x0 ≠ r.id := by
            rw [← hxx0, ← hfid]
            exact hfner
          have hisCPf : isCP f ∧ pathOf f = pathOf r :=
            classOf_inv R hndR r f (hLR2 f hfL) hcp (by rw [hfid]; exact hx)
          have hx0k : x0 ∉ addKey (b.rmap.filter fun k => k ≠ y) r.id := by
            intro hmem
            rcases (mem_addKey _ _ _).mp hmem with hh | hh
            · exact hx0ner hh
            · rcases hpxy.2 with hcl | hdi
              · have hne2 := (List.mem_filter.mp hh).2
                simp at hne2
                exact hne2 hcl
              · obtain ⟨hk0, _, _, _⟩ := hdi
                exact hk0 (List.mem_filter.mp hh).1
          have hmid : pairOK R L (addKey (b.rmap.filter fun k => k ≠ y) r.id)
              (tokIds d0) x0 r.id := by
            refine ⟨hx0cl.trans hrcl.symm, Or.inr ⟨hx0k, ?_, ⟨f, hfL, ?_, hisCPf.1⟩, ?_⟩⟩
            · refine ⟨U0, V0, hT0, ?_⟩
              intro z hz
              rw [hx0cl]
              exact hU0free z hz
            · rw [hfid, hxx0]
            · intro g hg h
              refine hridL ?_
              rw [← h]
              exact mem_rids_of_mem L g hg
          have hpairs2 : List.Forall₂ (pairOK R L (mergeStep R b r).rmap (tokIds d0))
              (tokIds d0) (tokIds (mergeStep R b r).doc) := by
            rw [hnewtok]
            have hcomb : List.Forall₂
                (pairOK R L (addKey (b.rmap.filter fun k => k ≠ y) r.id) (tokIds d0))
                (U0 ++ x0 :: V0) (tokIds pre ++ r.id :: tokIds post) :=
              List.rel_append hpU2 (List.Forall₂.cons hmid hpV2)
            rw [← hT0] at hcomb
            rw [hrmap]
            exact hcomb
          have hfnotl2 : f.id ∉ rids l2 := by
            have hnd2 := hndL
            rw [hsplit, rids_split] at hnd2
            have hnd3 := (List.nodup_append.mp hnd2).2.1
            exact (List.nodup_cons.mp hnd3).1
          have h72 : ∀ e ∈ L, isCP e → e.id ∉ (mergeStep R b r).rmap →
              anchorProm R L (mergeStep R b r).rmap (tokIds d0) e := by
            intro e he hcpe hek
            rw [hrmap] at hek
            have her : e ≠ r := by
              intro h
              rw [h] at he
              exact hridL (mem_rids_of_mem L r he)
            have hner : e.id ≠ r.id := fun h => hek ((mem_addKey _ _ _).mpr (Or.inl h))
            by_cases hey : e.id = y
            · rcases hpxy.2 with hcl | hdi
              · -- the position was clean: the dislodged id is the anchor itself
                have heidf : e.id = f.id := by
                  rw [hey, ← hcl, ← hxx0, ← hfid]
                have hef2 : e = f := eq_of_id_eq (r :: L) hndL e f (by simp [he])
                  (by simp [hfL]) heidf
                have hpe : pathOf e = pathOf r := by
                  rw [hef2]
                  exact hisCPf.2
                refine ⟨U0, x0, V0, hT0, ?_, ?_, l1t, f, l2, hLt, by rw [hfid, hxx0],
                  Or.inl hef2, ?_⟩
                · intro z hz
                  rw [hpe]
                  exact hU0free z hz
                · rw [hpe]
                  exact hx0cl
                · intro g hg hgcp hgp
                  rw [hrmap]
                  have hgy : g.id ≠ y := by
                    intro hgy2
                    have hgf : g = f := eq_of_id_eq (r :: L) hndL g f
                      (by rw [hLt]; simp [hg])
                      (by simp [hfL]) (by rw [hgy2, ← hcl, ← hxx0, ← hfid])
                    rw [hgf] at hg
                    exact hfnotl2 (mem_rids_of_mem l2 f hg)
                  exact (mem_addKey _ _ _).mpr (Or.inr (List.mem_filter.mpr
                    ⟨hprom g hg hgcp (hgp.trans hpe), by simp [hgy]⟩))
              · obtain ⟨_, _, _, hyall0⟩ := hdi
                exact absurd hey (hyall0 e (by simp [he]))
            · have h1e : e.id ∉ b.rmap := fun hm => hek ((mem_addKey _ _ _).mpr
                (Or.inr (List.mem_filter.mpr ⟨hm, by simp [hey]⟩)))
              obtain ⟨ue, xe, ve, hTe, hue, hxe, l1e, fe, l2e, hsplite, hfeid, hefe, hprome⟩ :=
                h7 e (by simp [he]) hcpe h1e
              by_cases hpp : pathOf e = pathOf r
              · -- same class as the step: anchors coincide
                obtain ⟨hh1, hh2, hh3⟩ := first_class_unique R (some (pathOf e)) ue xe ve
                  U0 x0 V0 (hTe.symm.trans hT0) hue (by rw [hpp]; exact hU0free) hxe
                  (by rw [hpp]; exact hx0cl)
                have hfeidf : fe.id = f.id := by
                  rw [hfeid, hh2, ← hxx0, ← hfid]
                have hfef : fe = f := eq_of_id_eq (r :: L) hndL fe f
                  (by rw [hsplite]; simp) (by simp [hfL]) hfeidf
                rcases List.cons_eq_append_iff.mp hsplite with ⟨hl1e, hfl2e⟩
                  | ⟨l1et, hl1e, hLte⟩
                · injection hfl2e with hfe1 hfe2
                  refine absurd (mem_rids_of_mem L r ?_) hridL
                  rw [← (hfef.symm.trans hfe1)]
                  exact hfL
                · refine ⟨ue, xe, ve, hTe, hue, hxe, l1et, fe, l2e, hLte, hfeid, ?_, ?_⟩
                  · rcases hefe with hefe2 | hel1
                    · exact Or.inl hefe2
                    · rw [hl1e] at hel1
                      rcases List.mem_cons.mp hel1 with h2 | h2
                      · exact absurd h2 her
                      · exact Or.inr h2
                  · intro g hg hgcp hgp
                    rw [hrmap]
                    have hgy : g.id ≠ y := by
                      intro hgy2
                      rcases hpxy.2 with hcl | hdi
                      · -- clean: y is the anchor id, pending only at fe
                        have hgfe : g = fe := eq_of_id_eq (r :: L) hndL g fe
                          (by rw [hLte]; simp [hg])
                          (by rw [hsplite]; simp)
                          (by rw [hgy2, ← hcl, ← hh2, ← hfeid])
                        have hnd2 := hndL
                        rw [show (r :: L) = (r :: l1et) ++ fe :: l2e by
                          rw [hLte]; rfl, rids_split] at hnd2
                        have hnd3 := (List.nodup_append.mp hnd2).2.1
                        have hfenotl2 := (List.nodup_cons.mp hnd3).1
                        rw [hgfe] at hg
                        exact hfenotl2 (mem_rids_of_mem l2e fe hg)
                      · obtain ⟨_, _, _, hyall0⟩ := hdi
                        exact hyall0 g (by rw [hLte]; simp [hg]) hgy2
                    exact (mem_addKey _ _ _).mpr (Or.inr (List.mem_filter.mpr
                      ⟨hprome g hg hgcp hgp, by simp [hgy]⟩))
              · rcases List.cons_eq_append_iff.mp hsplite with ⟨hl1e, hfl2e⟩
                  | ⟨l1et, hl1e, hLte⟩
                · injection hfl2e with hfe1 hfe2
                  have hxer : xe = r.id := by rw [← hfeid, hfe1]
                  refine absurd hxe ?_
                  rw [hxer, hrcl]
                  intro hc
                  exact hpp (Option.some_inj.mp hc).symm
                · refine ⟨ue, xe, ve, hTe, hue, hxe, l1et, fe, l2e, hLte, hfeid, ?_, ?_⟩
                  · rcases hefe with hefe2 | hel1
                    · exact Or.inl hefe2
                    · rw [hl1e] at hel1
                      rcases List.mem_cons.mp hel1 with h2 | h2
                      · exact absurd h2 her
                      · exact Or.inr h2
                  · intro g hg hgcp hgp
                    rw [hrmap]
                    have hgy : g.id ≠ y := by
                      intro hgy2
                      have hgcl : classOf R g.id = some (pathOf g) :=
                        classOf_of_isCP R hndR g (hLR2 g (by rw [hLte]; simp [hg])) hgcp
                      rw [hgy2, hycl] at hgcl
                      exact hpp (by rw [← hgp]; exact (Option.some_inj.mp hgcl).symm)
                    exact (mem_addKey _ _ _).mpr (Or.inr (List.mem_filter.mpr
                      ⟨hprome g hg hgcp hgp, by simp [hgy]⟩))
          exact ih (mergeStep R b r) hLR2 hndL2 hpres.1 hpres.2 hb2 hshape2 hpairs2 h62 h72
      · -- a found tag already carrying the id would be covered, hence keyed
        obtain ⟨pre, post, hd, hj0, hm, hmin⟩ := findTagAux_some_min R r b.doc 0 j r.id hft
        refine absurd (hcov r.id ?_) h1
        rw [hd, tokIds_append]
        simp [tokIds]

/-- C7 (counterexample to the sentence as stated, for lists with duplicate
ids): in `R = [y(code,q), a(code,p), z(code,q), y(code,p)]` the id `y`
occurs twice, and a tag carrying `y` always resolves through the FIRST
list entry with that id (path `q`).  From the empty state, run 1 processes
the second `y` entry (path `p`) by path-matching the token `a` and
re-keying it to `y`; run 2 then finds no class-`p` tag for entry `a`
(the only `y` token now resolves to path `q`) and inserts a fresh `a`
token: the second run's document differs from the first run's. -/
theorem reconcile_not_idempotent :
    ¬ ((updateResources
          [⟨['y'], RType.code, some ['q']⟩, ⟨['a'], RType.code, some ['p']⟩,
           ⟨['z'], RType.code, some ['q']⟩, ⟨['y'], RType.code, some ['p']⟩] none
          (updateResources
            [⟨['y'], RType.code, some ['q']⟩, ⟨['a'], RType.code, some ['p']⟩,
             ⟨['z'], RType.code, some ['q']⟩, ⟨['y'], RType.code, some ['p']⟩] none
            ⟨[], []⟩).1).1.doc
        = (updateResources
            [⟨['y'], RType.code, some ['q']⟩, ⟨['a'], RType.code, some ['p']⟩,
             ⟨['z'], RType.code, some ['q']⟩, ⟨['y'], RType.code, some ['p']⟩] none
            ⟨[], []⟩).1.doc) := by decide

/-- C7 (amended): running `updateResources` twice in a row with the same
list yields a document list-identical (same text, same token ids in the
same order) to one run, for every state satisfying the reachable-state
invariant (every attached tag id is keyed, attached ids unique) and every
list whose entries have pairwise distinct ids — the shape the resource
panel's data model produces.  Same-path code entries are allowed: when the
path re-keying of §9 moves a token's key during the first run, the second
run re-runs exactly the same churn on the already-churned state and lands
on the same document.  With duplicate ids the sentence fails
(`reconcile_not_idempotent`). -/
theorem reconcile_idempotent (R : List Resource) (sel1 sel2 : Option Sel) (st : St)
    (hcov : mapCovers st)
    (hnd : (tokIds st.doc).Nodup)
    (hndR : (rids R).Nodup) :
    (updateResources R sel2 (updateResources R sel1 st).1).1.doc
      = (updateResources R sel1 st).1.doc := by
  obtain ⟨c1, c2, c3, c4, c5⟩ := run1_fold R hndR R []
    ⟨pruneDoc R st.doc, pruneMap R st, sel1, []⟩ rfl
    (prune_covers R st hcov) (prune_nodup R st hnd) (prune_sub_rids R st)
    (fun e he _ hnm => absurd he hnm) (fun e he _ hnm => absurd he hnm)
  have hdoc1 : (updateResources R sel1 st).1.doc
      = updSettle (R.foldl (mergeStep R)
          ⟨pruneDoc R st.doc, pruneMap R st, sel1, []⟩).doc := rfl
  have htok1 : tokIds (updateResources R sel1 st).1.doc
      = tokIds (R.foldl (mergeStep R)
          ⟨pruneDoc R st.doc, pruneMap R st, sel1, []⟩).doc := by
    rw [hdoc1, tokIds_updSettle_eq]
  have hnd1 : (tokIds (updateResources R sel1 st).1.doc).Nodup := by
    rw [htok1]; exact c2
  have hsub1 : ∀ id ∈ tokIds (updateResources R sel1 st).1.doc, id ∈ rids R := by
    intro id hid
    rw [htok1] at hid
    exact c3 id hid
  have hp2 : pruneDoc R (updateResources R sel1 st).1.doc
      = (updateResources R sel1 st).1.doc :=
    pruneDoc_eq_self R _ hsub1
  have hm2 : pruneMap R (updateResources R sel1 st).1
      = (updateResources R sel1 st).1.rmap :=
    pruneMap_eq_self R _ hsub1
  have hcov1 : mapCovers (updateResources R sel1 st).1 := by
    intro id hid
    have h2 : id ∈ tokIds (updateResources R sel1 st).1.doc :=
      (mem_tokIds _ _).mpr hid
    rw [htok1] at h2
    exact c1 id h2
  have hcovb : ∀ id, id ∈ tokIds (pruneDoc R (updateResources R sel1 st).1.doc) →
      id ∈ pruneMap R (updateResources R sel1 st).1 :=
    prune_covers R _ hcov1
  have hndb : (tokIds (pruneDoc R (updateResources R sel1 st).1.doc)).Nodup :=
    prune_nodup R _ hnd1
  have hbb : ∀ id, id ∈ tokIds (pruneDoc R (updateResources R sel1 st).1.doc) →
      id ∈ rids R :=
    prune_sub_rids R _
  have hshape : List.Forall₂ shapePair (updateResources R sel1 st).1.doc
      (pruneDoc R (updateResources R sel1 st).1.doc) := by
    rw [hp2]
    exact List.forall₂_same.mpr fun n _ => Or.inl rfl
  have hpairs : List.Forall₂
      (pairOK R R (pruneMap R (updateResources R sel1 st).1)
        (tokIds (updateResources R sel1 st).1.doc))
      (tokIds (updateResources R sel1 st).1.doc)
      (tokIds (pruneDoc R (updateResources R sel1 st).1.doc)) := by
    rw [hp2]
    exact List.forall₂_same.mpr fun x _ => ⟨rfl, Or.inl rfl⟩
  have h6 : ∀ e ∈ R, ¬ isCP e → e.id ∈ pruneMap R (updateResources R sel1 st).1 := by
    intro e he hcp
    rw [hm2]
    exact c4 e he hcp
  have h7 : ∀ e ∈ R, isCP e → e.id ∉ pruneMap R (updateResources R sel1 st).1 →
      anchorProm R R (pruneMap R (updateResources R sel1 st).1)
        (tokIds (updateResources R sel1 st).1.doc) e := by
    intro e he hcpe hek
    rw [hm2] at hek
    obtain ⟨u, x, v, hT, hu, hx, l1, f, l2, hsplit, hfid, hel1, hprom⟩ :=
      c5 e he hcpe hek
    refine ⟨u, x, v, ?_, hu, hx, l1, f, l2, hsplit, hfid, Or.inr hel1, ?_⟩
    · rw [htok1]; exact hT
    · intro g hg hgcp hgp
      rw [hm2]
      exact (hprom g hg hgcp hgp).resolve_right (List.not_mem_nil g)
  have hfold2 : (R.foldl (mergeStep R)
      ⟨pruneDoc R (updateResources R sel1 st).1.doc,
       pruneMap R (updateResources R sel1 st).1, sel2, []⟩).doc
      = (updateResources R sel1 st).1.doc :=
    run2_fold R hndR (updateResources R sel1 st).1.doc hnd1 R
      ⟨pruneDoc R (updateResources R sel1 st).1.doc,
       pruneMap R (updateResources R sel1 st).1, sel2, []⟩
      (fun f hf => hf) hndR hcovb hndb hbb hshape hpairs h6 h7
  have hrun2 : (updateResources R sel2 (updateResources R sel1 st).1).1.doc
      = updSettle (R.foldl (mergeStep R)
          ⟨pruneDoc R (updateResources R sel1 st).1.doc,
           pruneMap R (updateResources R sel1 st).1, sel2, []⟩).doc := rfl
  rw [hrun2, hfold2, hdoc1, updSettle_idem]

/-- Witness for C7 at a list with two same-path code entries (the §9
situation) over a one-token state. -/
theorem reconcile_idempotent_witness :
    (updateResources [⟨['a'], RType.code, some ['p']⟩, ⟨['b'], RType.code, some ['p']⟩] none
        (updateResources [⟨['a'], RType.code, some ['p']⟩, ⟨['b'], RType.code, some ['p']⟩] none
          ⟨[Node.tok ['a'], Node.text ['x']], [['a']]⟩).1).1.doc
      = (updateResources [⟨['a'], RType.code, some ['p']⟩, ⟨['b'], RType.code, some ['p']⟩] none
          ⟨[Node.tok ['a'], Node.text ['x']], [['a']]⟩).1.doc :=
  reconcile_idempotent _ none none _ (fun id h => by simp at h; simp [h])
    (by decide) (by decide)
